import Mathlib

/-!
Verification development for the movie-catalog extraction pipeline
(src/dags/project.py): URL/title normalization, the deduplicating list
collector, the tiered detail extractor, and the chunked batch coordinator.

The Python functions are embedded shallowly as Lean functions on
List Char / String.  Python str operations and the re patterns used by the
source are modelled for ASCII text (the data handled by the scraper);
CPython urlparse is modelled after the urllib.parse algorithm: scheme
split, netloc split, fragment/query split, params split, and the
bracket-mismatch ValueError.  WHATWG control-character stripping of newer
CPython and the bracketed-host validation are not modelled; no claim here
depends on them.
-/

/-- Python lowercase of one character (str.lower, ASCII range). -/
def pyLower (c : Char) : Char := c.toLower

/-- Python whitespace class (regex backslash-s and str.strip, ASCII range). -/
def pySpace (c : Char) : Bool :=
  c = ' ' || c = '\t' || c = '\n' || c = '\x0d' || c = '\x0b' || c = '\x0c'

/-- Python word-character class (regex backslash-w, ASCII range). -/
def pyWord (c : Char) : Bool := c.isAlpha || c.isDigit || c = '_'

/-- Drop elements satisfying p from the tail of a list (str.rstrip). -/
def dropTrail (p : Char → Bool) (l : List Char) : List Char :=
  (l.reverse.dropWhile p).reverse

/-- Python str.strip() on a character list: whitespace off both ends. -/
def stripL (l : List Char) : List Char := dropTrail pySpace (l.dropWhile pySpace)

/-- Python str.strip() on a String. -/
def stripS (s : String) : String := (stripL s.toList).asString

/-- Python str.lower() on a String (ASCII model). -/
def lowerS (s : String) : String := (s.toList.map pyLower).asString

/-- Value of a nonempty digit string (the int() of a regex digit group). -/
def digitsToNat (ds : List Char) : Nat :=
  ds.foldl (fun n c => n * 10 + (c.toNat - 48)) 0

/-- re.search of one to three digits: first digit run, at most 3 digits
(greedy, as in the patterns used for score texts). -/
def firstNum3 (l : List Char) : Option Nat :=
  let ds := ((l.dropWhile (fun c => !c.isDigit)).takeWhile Char.isDigit).take 3
  if ds = [] then none else some (digitsToNat ds)

/-- re.search of an unbounded digit run: first maximal digit run
(the duration pattern in the post-processing step). -/
def firstNumAll (l : List Char) : Option Nat :=
  let ds := (l.dropWhile (fun c => !c.isDigit)).takeWhile Char.isDigit
  if ds = [] then none else some (digitsToNat ds)

/-- Anchored match of one to three digits with an optional percent sign
(the tier-3 candidate pattern). -/
def scoreToken (l : List Char) : Option Nat :=
  let ds := l.takeWhile Char.isDigit
  let rest := l.dropWhile Char.isDigit
  if ds ≠ [] ∧ ds.length ≤ 3 ∧ (rest = [] ∨ rest = ['%']) then
    some (digitsToNat ds)
  else none

/-- Does the second list start with the first (str.startswith)? -/
def hasPrefixL : List Char → List Char → Bool
  | [], _ => true
  | _ :: _, [] => false
  | n :: ns, c :: cs => n = c && hasPrefixL ns cs

/-- Does the second list contain the first as a contiguous run
(the Python "in" test on strings)? -/
def hasInfixL (needle : List Char) : List Char → Bool
  | [] => hasPrefixL needle []
  | c :: cs => hasPrefixL needle (c :: cs) || hasInfixL needle cs

/-! ### CPython urlparse model -/

/-- Characters allowed in a URL scheme (urllib.parse scheme_chars). -/
def schemeChar (c : Char) : Bool :=
  c.isAlpha || c.isDigit || c = '+' || c = '-' || c = '.'

/-- Scan for the scheme colon; succeeds only if every character before the
first colon is a scheme character. -/
def schemeSplitAux : List Char → Option (List Char × List Char)
  | [] => none
  | c :: rest =>
    if c = ':' then some ([], rest)
    else if schemeChar c then
      match schemeSplitAux rest with
      | some (s, t) => some (c :: s, t)
      | none => none
    else none

/-- urlsplit scheme recognition: a scheme is split off when the input has a
colon, the first character is a letter, and everything before the colon is
a scheme character. -/
def splitScheme (l : List Char) : Option (List Char × List Char) :=
  match l with
  | [] => none
  | c :: _ => if c.isAlpha then schemeSplitAux l else none

/-- Characters that end the netloc portion (urllib.parse _splitnetloc). -/
def netlocChar (c : Char) : Bool := !(c = '/' || c = '?' || c = '#')

/-- urlparse params split: drop the part of the path after the first
semicolon that follows the last slash (first semicolon anywhere when the
path has no slash). -/
def splitparams (p : List Char) : List Char :=
  if ';' ∈ p then
    if '/' ∈ p then
      let b := (p.reverse.takeWhile (fun c => !(c = '/'))).reverse
      if ';' ∈ b then p.take (p.length - b.length) ++ b.takeWhile (fun c => !(c = ';'))
      else p
    else p.takeWhile (fun c => !(c = ';'))
  else p

/-- urlparse, restricted to the fields the source reads: scheme, netloc and
path (params split off the path, query and fragment dropped).  The error
value models the ValueError raised on a bracket-mismatched netloc. -/
def urlparse3 (l : List Char) : Except Unit (List Char × List Char × List Char) :=
  let sr :=
    match splitScheme l with
    | some (s, r) => (s.map pyLower, r)
    | none => ([], l)
  let scheme := sr.1
  let rest := sr.2
  if rest.take 2 = ['/', '/'] then
    let netloc := (rest.drop 2).takeWhile netlocChar
    let rest2 := (rest.drop 2).dropWhile netlocChar
    if ('[' ∈ netloc ∧ ']' ∉ netloc) ∨ (']' ∈ netloc ∧ '[' ∉ netloc) then
      .error ()
    else
      let path0 := (rest2.takeWhile (fun c => !(c = '#'))).takeWhile (fun c => !(c = '?'))
      .ok (scheme, netloc, splitparams path0)
  else
    let path0 := (rest.takeWhile (fun c => !(c = '#'))).takeWhile (fun c => !(c = '?'))
    .ok (scheme, [], splitparams path0)

/-- The try/except body of normalize_url: rebuild scheme://netloc+path
from urlparse (dropping query, fragment and params) and strip trailing
slashes; on a urlparse ValueError fall back to cutting at the first
question mark and hash sign. -/
def rebuildCore (url : List Char) : List Char :=
  match urlparse3 url with
  | .ok (scheme, netloc, path) =>
    dropTrail (fun c => c = '/') (scheme ++ ':' :: '/' :: '/' :: (netloc ++ path))
  | .error _ =>
    dropTrail (fun c => c = '/')
      ((url.takeWhile (fun c => !(c = '?'))).takeWhile (fun c => !(c = '#')))

/-- normalize_url of the source, on character lists: prepend the site
origin for relative references, then rebuild. -/
def normalize_url_list (url0 : List Char) : List Char :=
  if url0 = [] then []
  else
    rebuildCore
      (if hasPrefixL "http://".toList url0 || hasPrefixL "https://".toList url0 then url0
       else if url0.take 2 = ['/', '/'] then "https:".toList ++ url0
       else if url0.take 1 = ['/'] then "https://www.rottentomatoes.com".toList ++ url0
       else url0)

/-- normalize_url of the source (src/dags/project.py lines 29-45). -/
def normalize_url (s : String) : String := (normalize_url_list s.toList).asString

/-! ### normalize_title model -/

/-- One pass of re.sub collapsing each whitespace run to a single space. -/
def collapseWS : List Char → List Char
  | [] => []
  | [c] => [if pySpace c then ' ' else c]
  | c :: d :: rest =>
    if pySpace c && pySpace d then collapseWS (d :: rest)
    else (if pySpace c then ' ' else c) :: collapseWS (d :: rest)

/-- normalize_title of the source, on character lists: lowercase, strip,
collapse whitespace runs, then delete every character that is neither a
word character nor whitespace. -/
def normalize_title_list (t : List Char) : List Char :=
  if t = [] then []
  else
    let t1 := stripL (t.map pyLower)
    let t2 := collapseWS t1
    t2.filter (fun c => pyWord c || pySpace c)

/-- normalize_title of the source (src/dags/project.py lines 48-56). -/
def normalize_title (s : String) : String := (normalize_title_list s.toList).asString

/-! ### List collector model (scrape_list_pages) -/

/-- One candidate link on a listing page: the title-span text when the
span exists, and the href attribute when present. -/
structure Candidate where
  title : Option String
  href : Option String
deriving DecidableEq

/-- One accepted entry of the collector, as stored in movies_dict: the
stripped display title and the normalized URL (the dict key). -/
structure MovieEntry where
  title : String
  url : String
deriving DecidableEq

/-- The fixed deny-list of non-title UI labels. -/
def denyTitles : List String := ["tomatometer", "audience score", "popcornmeter", "score"]

/-- The body of the per-candidate loop of scrape_list_pages
(src/dags/project.py lines 89-132): filter, normalize, deduplicate,
insert.  movies_dict is modelled as the list of its values in insertion
order; the dict key of an entry equals its url field. -/
def processCandidate (movies_dict : List MovieEntry) (c : Candidate) : List MovieEntry :=
  match c.title with
  | none => movies_dict
  | some rawTitle =>
    if rawTitle = "" ∨ stripS rawTitle = "" then movies_dict
    else
      let title := stripS rawTitle
      if lowerS title ∈ denyTitles then movies_dict
      else
        match c.href with
        | none => movies_dict
        | some href =>
          let normalized_url := normalize_url href
          let normalized_title := normalize_title title
          if normalized_url = "" ∨ normalized_title = "" then movies_dict
          else if normalized_url ∈ movies_dict.map MovieEntry.url then movies_dict
          else if normalized_title ∈ movies_dict.map (fun m => normalize_title m.title) then
            movies_dict
          else movies_dict ++ [⟨title, normalized_url⟩]

/-- scrape_list_pages (src/dags/project.py lines 59-151): the pages are
given as the candidate sequences the selectors would yield (a failed page
contributes the candidates processed before the failure); the returned
sequence is list(movies_dict.values()). -/
def scrape_list_pages (pages : List (List Candidate)) : List MovieEntry :=
  pages.foldl (fun d page => page.foldl processCandidate d) []

/-! ### Detail extractor model (scrape_movie_metadata_efficient) -/

/-- One labeled row of the media-info panel: the item-label text when the
label element exists, and the raw item-value texts. -/
structure InfoItem where
  label : Option String
  values : List String
deriving DecidableEq

/-- Abstract content of one detail page, as seen through the rendering
calls the extractor makes.  none models the corresponding call timing out,
finding nothing, or raising (each such failure is caught by the source at
the site of the call).  navError models the goto/viewport phase raising;
lateError models an uncaught error after extraction (browser close). -/
structure DetailPage where
  navError : Option String
  criticsText : Option String
  audienceText : Option String
  evalScores : Option (Option Nat × Option Nat)
  rtTexts : Option (List String)
  infoItems : Option (List InfoItem)
  lateError : Option String
deriving DecidableEq

/-- The metadata dict built by the extractor. -/
structure Metadata where
  url : String
  title : String
  tomatometer_score : Option Nat
  audience_score : Option Nat
  genre : Option String
  rating : Option String
  duration : Option String
  release_date : Option String
  director : Option String
  original_language : Option String
  box_office : Option String
  distributor : Option String
  error : Option String
deriving DecidableEq

/-- Result of one extraction: the full metadata dict, or the minimal
failure dict holding only url, title and the error text. -/
inductive ExtractResult where
  | ok (m : Metadata)
  | fail (url title error : String)
deriving DecidableEq

/-- Tier 1: read the dedicated score element text, take the first run of
up to three digits, accept only values in [0,100]
(src/dags/project.py lines 190-218). -/
def parseScoreText (txt : Option String) : Option Nat :=
  match txt with
  | none => none
  | some s =>
    if s = "" then none
    else
      match firstNum3 (stripL s.toList) with
      | some score => if 0 ≤ score ∧ score ≤ 100 then some score else none
      | none => none

/-- Python truthiness of scores.get(...): false for a missing value and
for the number 0. -/
def truthy : Option Nat → Bool
  | none => false
  | some v => v != 0

/-- Tier 2: in-page script evaluation, attempted only when a score is
still unset; each returned value is assigned to a still-unset score when
it is truthy — with no range check (src/dags/project.py lines 220-245). -/
def tier2 (ev : Option (Option Nat × Option Nat)) (tom aud : Option Nat) :
    Option Nat × Option Nat :=
  if tom = none ∨ aud = none then
    match ev with
    | none => (tom, aud)
    | some (jt, ja) =>
      let tom2 := if truthy jt ∧ tom = none then jt else tom
      let aud2 := if truthy ja ∧ aud = none then ja else aud
      (tom2, aud2)
  else (tom, aud)

/-- Tier 3: scan all rt-text elements for anchored 1-3 digit tokens in
[0,100]; when exactly two candidates exist, the larger goes to a
still-unset critic score and the smaller to a still-unset audience score
(src/dags/project.py lines 247-270). -/
def tier3 (rts : Option (List String)) (tom aud : Option Nat) :
    Option Nat × Option Nat :=
  if tom = none ∨ aud = none then
    match rts with
    | none => (tom, aud)
    | some texts =>
      let ps := texts.filterMap (fun t =>
        if t = "" then none
        else
          match scoreToken (stripL t.toList) with
          | some s => if 0 ≤ s ∧ s ≤ 100 then some s else none
          | none => none)
      match ps with
      | [a, b] =>
        let hi := max a b
        let lo := min a b
        (if tom = none then some hi else tom, if aud = none then some lo else aud)
      | _ => (tom, aud)
  else (tom, aud)

/-- The field keyword table, in dict insertion order. -/
def field_mappings : List (String × List String) :=
  [("genre", ["genre"]), ("rating", ["rating"]), ("runtime", ["runtime"]),
   ("release date", ["release date"]), ("director", ["director"]),
   ("original language", ["original language"]), ("box office", ["box office"]),
   ("distributor", ["distributor"])]

/-- First field whose keyword occurs in the lowercased stripped label. -/
def findTargetField (label_lower : List Char) : Option String :=
  (field_mappings.find? (fun fk => fk.2.any (fun kw => hasInfixL kw.toList label_lower))).map
    Prod.fst

/-- Join values with a comma and space (", ".join). -/
def joinComma (values : List String) : String := String.intercalate ", " values

/-- values[0].replace(" ", ""): delete every space character. -/
def removeSpaces (s : String) : String := (s.toList.filter (fun c => !(c = ' '))).asString

/-- re.sub removing a trailing ", Wide" (with optional surrounding
whitespace) from a release-date value.  The values this is applied to are
stripped beforehand, so the end-of-string anchor is exact. -/
def stripWideL (l : List Char) : List Char :=
  let r := l.reverse
  if r.take 4 = "ediW".toList then
    let r1 := (r.drop 4).dropWhile pySpace
    match r1 with
    | c :: r2 => if c = ',' then (r2.dropWhile pySpace).reverse else l
    | [] => l
  else l

/-- stripWideL on Strings. -/
def stripWide (s : String) : String := (stripWideL s.toList).asString

/-- One iteration of the info-panel loop (src/dags/project.py lines
289-334): match the label against the keyword table, gather the nonempty
stripped values, and assign the target field. -/
def applyInfoItem (md : Metadata) (it : InfoItem) : Metadata :=
  match it.label with
  | none => md
  | some lbl =>
    let label_lower := stripL (lbl.toList.map pyLower)
    match findTargetField label_lower with
    | none => md
    | some fld =>
      let values := it.values.filterMap (fun v =>
        let sv := stripS v
        if v ≠ "" ∧ sv ≠ "" then some sv else none)
      if values = [] then md
      else if fld = "genre" then { md with genre := some (joinComma values) }
      else if fld = "rating" then { md with rating := some (values.headD "") }
      else if fld = "runtime" then { md with duration := some (removeSpaces (values.headD "")) }
      else if fld = "release date" then
        { md with release_date := some (stripWide (values.headD "")) }
      else if fld = "director" then { md with director := some (joinComma values) }
      else if fld = "original language" then
        { md with original_language := some (values.headD "") }
      else if fld = "box office" then { md with box_office := some (values.headD "") }
      else if fld = "distributor" then { md with distributor := some (values.headD "") }
      else md

/-- Sanitation pass over one score field (src/dags/project.py lines
339-347): a set value outside [0,100] is forced back to None.  The int()
conversion cannot fail on our integer-valued scores, so the
ValueError/TypeError branch is not reachable in the model. -/
def sanitizeScore : Option Nat → Option Nat
  | none => none
  | some v => if 0 ≤ v ∧ v ≤ 100 then some v else none

/-- Duration post-processing (src/dags/project.py lines 349-359): when the
stored value has no h or m (case-insensitive), parse the first integer and
reformat as Nm below one hour, and as Hh Mm from one hour on. -/
def formatDuration (d : String) : String :=
  let ld := d.toList
  if 'h' ∈ ld.map pyLower ∨ 'm' ∈ ld.map pyLower then d
  else
    match firstNumAll ld with
    | some minutes =>
      if minutes ≥ 60 then s!"{minutes / 60}h {minutes % 60}m"
      else s!"{minutes}m"
    | none => d

/-- The metadata built on the success path: score tiers, info panel,
sanitation pass, duration post-processing. -/
def extractMetadata (pg : DetailPage) (url title : String) : Metadata :=
  let base : Metadata :=
    ⟨url, title, none, none, none, none, none, none, none, none, none, none, none⟩
  let p2 := tier2 pg.evalScores (parseScoreText pg.criticsText) (parseScoreText pg.audienceText)
  let p3 := tier3 pg.rtTexts p2.1 p2.2
  let md1 := { base with tomatometer_score := p3.1, audience_score := p3.2 }
  let md2 :=
    match pg.infoItems with
    | none => md1
    | some its => its.foldl applyInfoItem md1
  let md3 := { md2 with
    tomatometer_score := sanitizeScore md2.tomatometer_score,
    audience_score := sanitizeScore md2.audience_score }
  { md3 with duration := md3.duration.map formatDuration }

/-- scrape_movie_metadata_efficient (src/dags/project.py lines 154-379):
a navigation failure, or an uncaught error after extraction, yields the
minimal failure dict; otherwise the metadata dict is returned. -/
def scrape_movie_metadata_efficient (pg : DetailPage) (url title : String) : ExtractResult :=
  match pg.navError with
  | some e => .fail url title e
  | none =>
    match pg.lateError with
    | some e => .fail url title e
    | none => .ok (extractMetadata pg url title)

/-! ### Batch coordinator model (scrape_all_movies_batch) -/

/-- Behaviour of one extraction call inside the batch: it either completes
with a result dict, or raises an unhandled error. -/
inductive ExtractBehavior where
  | completes (r : ExtractResult)
  | raises (e : String)

/-- A settled task as seen by gather(return_exceptions=True): a returned
dict, or a captured exception object. -/
inductive TaskOutcome where
  | value (r : ExtractResult)
  | raised (e : String)
deriving DecidableEq

/-- process_movie_with_semaphore (src/dags/project.py lines 387-398): run
the extraction under the admission gate; an unhandled error becomes the
url/title/error failure dict. -/
def process_movie_with_semaphore (behav : MovieEntry → ExtractBehavior)
    (movie : MovieEntry) : ExtractResult :=
  match behav movie with
  | .completes r => r
  | .raises e => .fail movie.url movie.title e

/-- Python truthiness of a result dict in the elif of the chunk loop: both
record shapes are nonempty dicts, hence truthy. -/
def recordTruthy (_ : ExtractResult) : Bool := true

/-- The per-chunk aggregation loop (src/dags/project.py lines 416-426):
an exception captured by gather becomes a failure outcome built from the
aligned movies entry; a truthy result dict is appended as-is. -/
def handleChunk (pairs : List (MovieEntry × TaskOutcome)) : List ExtractResult :=
  pairs.filterMap (fun mo =>
    match mo.2 with
    | .raised e => some (.fail mo.1.url mo.1.title e)
    | .value r => if recordTruthy r then some r else none)

/-- The chunk loop (src/dags/project.py lines 405-432): slices of ten
settled tasks, aggregated in order; the inter-chunk pacing sleep has no
effect on the data.  The fuel argument only bounds the recursion and is
instantiated with the entry count. -/
def processChunksF : Nat → List (MovieEntry × TaskOutcome) → List ExtractResult
  | _, [] => []
  | 0, _ => []
  | fuel + 1, ps => handleChunk (ps.take 10) ++ processChunksF fuel (ps.drop 10)

/-- scrape_all_movies_batch (src/dags/project.py lines 382-438).  The
semaphore argument bounds scheduling only and does not enter the data
path; tasks never deliver exceptions to gather because
process_movie_with_semaphore catches them. -/
def scrape_all_movies_batch (behav : MovieEntry → ExtractBehavior)
    (movies : List MovieEntry) (max_concurrent : Nat) : List ExtractResult :=
  let tasks := movies.map (fun m => TaskOutcome.value (process_movie_with_semaphore behav m))
  processChunksF movies.length (movies.zip tasks)

/-! ### Auxiliary definitions used by the claim statements -/

/-- Scores in a returned record are absent or within the valid range. -/
def scoreInRange : Option Nat → Prop
  | none => True
  | some v => v ≤ 100

/-- The dedup relation: two accepted entries share neither normalized key. -/
def entryDistinct (a b : MovieEntry) : Prop :=
  a.url ≠ b.url ∧ normalize_title a.title ≠ normalize_title b.title

/-- Concrete page used to witness claim C3. -/
def pgC3 : DetailPage := ⟨none, some "93%", none, none, none, none, none⟩

/-- Concrete behaviour used to witness claim C1: the second entry raises. -/
def behavC1 : MovieEntry → ExtractBehavior := fun m =>
  if m.url = "u2" then .raises "boom"
  else .completes (.ok
    ⟨m.url, m.title, some 1, none, none, none, none, none, none, none, none, none, none⟩)

/-- Split a character list into its maximal whitespace-free words, in
order; used to state whitespace-run insensitivity of normalize_title. -/
def wordsAux : List Char → List Char → List (List Char)
  | acc, [] => if acc = [] then [] else [acc.reverse]
  | acc, c :: rest =>
    if pySpace c then
      if acc = [] then wordsAux [] rest else acc.reverse :: wordsAux [] rest
    else wordsAux (c :: acc) rest

/-- The whitespace-separated words of a character list. -/
def words (l : List Char) : List (List Char) := wordsAux [] l

/-- Join words with single spaces. -/
def spaceJoin : List (List Char) → List Char
  | [] => []
  | [w] => w
  | w :: ws => w ++ ' ' :: spaceJoin ws

example : normalize_url "https://site/m/foo?x=1#y" = "https://site/m/foo" := by decide
example : normalize_url "/m/foo" = "https://www.rottentomatoes.com/m/foo" := by decide
example : normalize_url "abc" = "://abc" := by decide
example : normalize_url "://abc" = "://://abc" := by decide
example : normalize_url "http://h/a;b/" = "http://h/a;b" := by decide
example : normalize_url "http://h/a;b" = "http://h/a" := by decide
example : normalize_title "The Matrix!" = "the matrix" := by decide
example : normalize_title "a ! b" = "a  b" := by decide
example : normalize_title "a  b" = "a b" := by decide

/-! ### Generic lemmas about dropTrail (str.rstrip) -/

lemma dropWhile_eq_self_of_all {p : Char → Bool} {l : List Char}
    (h : ∀ c ∈ l, p c = false) : l.dropWhile p = l := by
  cases l with
  | nil => rfl
  | cons c cs => rw [List.dropWhile_cons, h c (List.mem_cons_self c cs)]; simp

lemma takeWhile_eq_self_of_all {p : Char → Bool} {l : List Char}
    (h : ∀ c ∈ l, p c = true) : l.takeWhile p = l := by
  induction l with
  | nil => rfl
  | cons c cs ih =>
    rw [List.takeWhile_cons, h c (List.mem_cons_self c cs)]
    simp only [if_true]
    rw [ih (fun x hx => h x (List.mem_cons_of_mem c hx))]

lemma takeWhile_append_of_all {p : Char → Bool} {A B : List Char}
    (h : ∀ c ∈ A, p c = true) : (A ++ B).takeWhile p = A ++ B.takeWhile p := by
  induction A with
  | nil => rfl
  | cons a A ih =>
    rw [List.cons_append, List.takeWhile_cons, h a (List.mem_cons_self a A)]
    simp only [if_true, List.cons_append]
    rw [ih (fun x hx => h x (List.mem_cons_of_mem a hx))]

lemma dropWhile_append_of_all {p : Char → Bool} {A B : List Char}
    (h : ∀ c ∈ A, p c = true) : (A ++ B).dropWhile p = B.dropWhile p := by
  induction A with
  | nil => rfl
  | cons a A ih =>
    rw [List.cons_append, List.dropWhile_cons, h a (List.mem_cons_self a A)]
    simp only [if_true]
    exact ih (fun x hx => h x (List.mem_cons_of_mem a hx))

lemma dropTrail_decomp (p : Char → Bool) (l : List Char) :
    ∃ s, l = dropTrail p l ++ s ∧ ∀ c ∈ s, p c = true := by
  refine ⟨(l.reverse.takeWhile p).reverse, ?_, ?_⟩
  · rw [dropTrail, ← List.reverse_append, List.takeWhile_append_dropWhile, List.reverse_reverse]
  · intro c hc
    rw [List.mem_reverse] at hc
    exact List.mem_takeWhile_imp hc

lemma dropTrail_subset {p : Char → Bool} {l : List Char} {c : Char}
    (hc : c ∈ dropTrail p l) : c ∈ l := by
  obtain ⟨s, hs, _⟩ := dropTrail_decomp p l
  rw [hs]; exact List.mem_append_left s hc

lemma dropTrail_append_left {p : Char → Bool} {A B : List Char}
    (h : ∀ a ∈ A, p a = false) : dropTrail p (A ++ B) = A ++ dropTrail p B := by
  unfold dropTrail
  rw [List.reverse_append, List.dropWhile_append]
  split
  · next hemp =>
    rw [List.isEmpty_iff] at hemp
    rw [hemp, dropWhile_eq_self_of_all (fun c hc => h c (by rwa [List.mem_reverse] at hc))]
    simp
  · rw [List.reverse_append, List.reverse_reverse]

lemma dropTrail_append_right {p : Char → Bool} {X B : List Char}
    (h : dropTrail p B ≠ []) : dropTrail p (X ++ B) = X ++ dropTrail p B := by
  unfold dropTrail at *
  rw [List.reverse_append, List.dropWhile_append]
  have hne : ¬(B.reverse.dropWhile p).isEmpty := by
    rw [List.isEmpty_iff]
    intro hcon
    exact h (by rw [hcon]; rfl)
  rw [if_neg hne, List.reverse_append, List.reverse_reverse]

lemma dropTrail_eq_nil_iff {p : Char → Bool} {l : List Char} :
    dropTrail p l = [] ↔ ∀ c ∈ l, p c = true := by
  unfold dropTrail
  rw [List.reverse_eq_nil_iff, List.dropWhile_eq_nil_iff]
  constructor
  · intro h c hc; exact h c (by rwa [List.mem_reverse])
  · intro h c hc; exact h c (by rwa [List.mem_reverse] at hc)

lemma dropTrail_idem (p : Char → Bool) (l : List Char) :
    dropTrail p (dropTrail p l) = dropTrail p l := by
  unfold dropTrail
  rw [List.reverse_reverse, List.dropWhile_idempotent]

lemma dropTrail_of_no_mem {p : Char → Bool} {l : List Char}
    (h : ∀ a ∈ l, p a = false) : dropTrail p l = l := by
  have h1 := dropTrail_append_left (B := ([] : List Char)) h
  rw [List.append_nil, show dropTrail p ([] : List Char) = [] from rfl, List.append_nil] at h1
  exact h1

lemma dropTrail_head {p : Char → Bool} {l : List Char}
    (h : dropTrail p l ≠ []) : (dropTrail p l).head? = l.head? := by
  obtain ⟨s, hs, _⟩ := dropTrail_decomp p l
  cases hdt : dropTrail p l with
  | nil => exact absurd hdt h
  | cons x xs => rw [hs, hdt]; simp

lemma dropTrail_cons_of_tail_ne {p : Char → Bool} {s : Char} {r : List Char}
    (h : dropTrail p r ≠ []) : dropTrail p (s :: r) = s :: dropTrail p r := by
  have : s :: r = [s] ++ r := rfl
  rw [this, dropTrail_append_right h]; rfl

/-! ### Claim theorems: extractor invariants -/

lemma sanitizeScore_inRange (s : Option Nat) : scoreInRange (sanitizeScore s) := by
  cases s with
  | none => trivial
  | some v =>
    by_cases h : 0 ≤ v ∧ v ≤ 100
    · rw [show sanitizeScore (some v) = if 0 ≤ v ∧ v ≤ 100 then some v else none from rfl,
        if_pos h]
      exact h.2
    · rw [show sanitizeScore (some v) = if 0 ≤ v ∧ v ≤ 100 then some v else none from rfl,
        if_neg h]
      trivial

lemma extractMetadata_tom (pg : DetailPage) (url title : String) :
    ∃ s, (extractMetadata pg url title).tomatometer_score = sanitizeScore s := by
  unfold extractMetadata
  exact ⟨_, rfl⟩

lemma extractMetadata_aud (pg : DetailPage) (url title : String) :
    ∃ s, (extractMetadata pg url title).audience_score = sanitizeScore s := by
  unfold extractMetadata
  exact ⟨_, rfl⟩

/-- Claim C3: every metadata record returned by the detail extractor has
tomatometer and audience scores that are null or integers in [0,100]; a
value of 150 produced by the unchecked tier-2 path is forced to null by
the sanitation pass before the record is returned. -/
theorem claim3_scores_sanitized :
    (∀ (pg : DetailPage) (url title : String) (m : Metadata),
      scrape_movie_metadata_efficient pg url title = .ok m →
      scoreInRange m.tomatometer_score ∧ scoreInRange m.audience_score)
    ∧ scrape_movie_metadata_efficient
        ⟨none, none, none, some (some 150, some 150), none, none, none⟩ "u" "t"
      = .ok ⟨"u", "t", none, none, none, none, none, none, none, none, none, none, none⟩ := by
  constructor
  · intro pg url title m h
    unfold scrape_movie_metadata_efficient at h
    cases hn : pg.navError with
    | some e => rw [hn] at h; exact absurd h (by simp)
    | none =>
      rw [hn] at h
      cases hl : pg.lateError with
      | some e => rw [hl] at h; exact absurd h (by simp)
      | none =>
        rw [hl] at h
        simp only [ExtractResult.ok.injEq] at h
        subst h
        constructor
        · obtain ⟨s, hs⟩ := extractMetadata_tom pg url title
          rw [hs]; exact sanitizeScore_inRange s
        · obtain ⟨s, hs⟩ := extractMetadata_aud pg url title
          rw [hs]; exact sanitizeScore_inRange s
  · decide

theorem claim3_scores_sanitized_witness :
    scoreInRange (Metadata.tomatometer_score
        ⟨"u", "t", some 93, none, none, none, none, none, none, none, none, none, none⟩)
    ∧ scoreInRange (Metadata.audience_score
        ⟨"u", "t", some 93, none, none, none, none, none, none, none, none, none, none⟩) :=
  claim3_scores_sanitized.1 pgC3 "u" "t"
    ⟨"u", "t", some 93, none, none, none, none, none, none, none, none, none, none⟩
    (by decide)

/-- Claim C8: a navigation failure, or an uncaught error at any later
point of the extraction, yields the minimal failure record carrying only
url, title and the error text, for every possible page content — fields
gathered before the error never appear in the result. -/
theorem claim8_extract_error_atomicity :
    ∀ (pg : DetailPage) (url title e : String),
      (pg.navError = some e ∨ (pg.navError = none ∧ pg.lateError = some e)) →
      scrape_movie_metadata_efficient pg url title = .fail url title e := by
  intro pg url title e h
  unfold scrape_movie_metadata_efficient
  rcases h with h | ⟨h1, h2⟩
  · rw [h]
  · rw [h1, h2]

theorem claim8_extract_error_atomicity_witness :
    scrape_movie_metadata_efficient
      ⟨none, some "88", some "77", some (some 88, some 77),
       some ["88"], some [⟨some "Genre", ["Drama"]⟩], some "boom"⟩ "u" "t"
    = .fail "u" "t" "boom" :=
  claim8_extract_error_atomicity _ "u" "t" "boom" (Or.inr ⟨rfl, rfl⟩)

/-- Claim C10: the tier-2 in-page evaluation tests the returned values for
truthiness, so a returned value of 0 is never assigned to a still-unset
score, even though 0 passes the range check used elsewhere. -/
theorem claim10_tier2_zero_never_assigned :
    (∀ (ja : Option Nat) (t a : Option Nat), t = none →
      (tier2 (some (some 0, ja)) t a).1 = none)
    ∧ (∀ (jt : Option Nat) (t a : Option Nat), a = none →
      (tier2 (some (jt, some 0)) t a).2 = none)
    ∧ sanitizeScore (some 0) = some 0 := by
  refine ⟨?_, ?_, by decide⟩
  · intro ja t a ht
    subst ht
    simp [tier2, truthy]
  · intro jt t a ha
    subst ha
    simp [tier2, truthy]

/-! ### Claim theorems: batch coordinator -/

lemma handleChunk_append (a b : List (MovieEntry × TaskOutcome)) :
    handleChunk (a ++ b) = handleChunk a ++ handleChunk b := by
  unfold handleChunk
  exact List.filterMap_append a b _

lemma processChunksF_eq_handleChunk :
    ∀ (fuel : Nat) (ps : List (MovieEntry × TaskOutcome)),
      ps.length ≤ fuel → processChunksF fuel ps = handleChunk ps := by
  intro fuel
  induction fuel with
  | zero =>
    intro ps h
    have : ps = [] := List.eq_nil_of_length_eq_zero (Nat.le_zero.mp h)
    subst this
    rfl
  | succ n ih =>
    intro ps h
    cases ps with
    | nil => rfl
    | cons p ps =>
      have hstep : processChunksF (n + 1) (p :: ps)
          = handleChunk ((p :: ps).take 10) ++ processChunksF n ((p :: ps).drop 10) := rfl
      rw [hstep, ih ((p :: ps).drop 10) ?_, ← handleChunk_append, List.take_append_drop]
      have hlen : (p :: ps).length ≤ n + 1 := h
      rw [List.length_drop]
      omega

/-- Claim C1: for every entry list and every maxConcurrent at least 1, the
batch coordinator returns exactly one outcome per input entry, in order;
an entry whose extraction raises an unhandled error yields a failure
record with exactly that entry's url, title and error text, and the other
entries keep their own outcomes. -/
theorem claim1_batch_fault_isolation :
    ∀ (behav : MovieEntry → ExtractBehavior) (movies : List MovieEntry) (k : Nat),
      1 ≤ k →
      scrape_all_movies_batch behav movies k
          = movies.map (process_movie_with_semaphore behav)
      ∧ (scrape_all_movies_batch behav movies k).length = movies.length
      ∧ (∀ (m : MovieEntry) (e : String), behav m = .raises e →
          process_movie_with_semaphore behav m = .fail m.url m.title e) := by
  intro behav movies k _
  have hmain : scrape_all_movies_batch behav movies k
      = movies.map (process_movie_with_semaphore behav) := by
    unfold scrape_all_movies_batch
    rw [processChunksF_eq_handleChunk movies.length _ ?_]
    · have hz : movies.zip
          (movies.map (fun m => TaskOutcome.value (process_movie_with_semaphore behav m)))
          = movies.map (fun m => (m, TaskOutcome.value (process_movie_with_semaphore behav m))) := by
        have hzm := List.zip_map' id
          (fun m => TaskOutcome.value (process_movie_with_semaphore behav m)) movies
        simpa using hzm
      rw [hz]
      unfold handleChunk
      rw [List.filterMap_map]
      have : (fun mo : MovieEntry × TaskOutcome =>
          match mo.2 with
          | .raised e => some (.fail mo.1.url mo.1.title e)
          | .value r => if recordTruthy r then some r else none) ∘
          (fun m => (m, TaskOutcome.value (process_movie_with_semaphore behav m)))
          = some ∘ (process_movie_with_semaphore behav) := by
        funext m
        simp [recordTruthy, Function.comp]
      rw [this, List.filterMap_eq_map]
    · rw [List.length_zip, List.length_map]
      exact Nat.le_of_eq (Nat.min_self _)
  refine ⟨hmain, by rw [hmain]; exact List.length_map _ _, ?_⟩
  intro m e h
  unfold process_movie_with_semaphore
  rw [h]

theorem claim1_batch_fault_isolation_witness :
    scrape_all_movies_batch behavC1 [⟨"A", "u1"⟩, ⟨"B", "u2"⟩, ⟨"C", "u3"⟩] 2
      = [.ok ⟨"u1", "A", some 1, none, none, none, none, none, none, none, none, none, none⟩,
         .fail "u2" "B" "boom",
         .ok ⟨"u3", "C", some 1, none, none, none, none, none, none, none, none, none, none⟩] := by
  have h := claim1_batch_fault_isolation behavC1 [⟨"A", "u1"⟩, ⟨"B", "u2"⟩, ⟨"C", "u3"⟩] 2
    (by decide)
  rw [h.1]
  decide

/-! ### Claim theorems: duration post-processing -/

/-- Claim C7 counterexample: a raw runtime value that is already formatted
with unit letters does not pass through the extraction unchanged — the
field extraction deletes its spaces before the post-processing step sees
it, so a page value of 1h 35m is stored as 1h35m. -/
theorem claim7_duration_counterexample :
    scrape_movie_metadata_efficient
        ⟨none, none, none, none, none, some [⟨some "Runtime", ["1h 35m"]⟩], none⟩ "u" "t"
      = .ok ⟨"u", "t", none, none, none, none, some "1h35m", none, none, none, none, none, none⟩
    ∧ (some "1h35m" : Option String) ≠ some "1h 35m" := by decide

/-- Claim C7 (amended): the duration post-processing step reformats a
value without unit letters from its first integer N as Nm below one hour
and as Hh Mm from one hour on (raw 95 gives 1h 35m, raw 45 gives 45m,
end to end); a value containing a unit letter passes through the
post-processing step unchanged, but the field extraction strips all
spaces from the raw value first. -/
theorem claim7_duration_formatting :
    (∀ (d : String) (N : Nat),
      'h' ∉ d.toList.map pyLower → 'm' ∉ d.toList.map pyLower →
      firstNumAll d.toList = some N →
      (N < 60 → formatDuration d = s!"{N}m")
      ∧ (60 ≤ N → formatDuration d = s!"{N / 60}h {N % 60}m"))
    ∧ (∀ d : String, ('h' ∈ d.toList.map pyLower ∨ 'm' ∈ d.toList.map pyLower) →
      formatDuration d = d)
    ∧ formatDuration "95" = "1h 35m" ∧ formatDuration "45" = "45m"
    ∧ scrape_movie_metadata_efficient
        ⟨none, none, none, none, none, some [⟨some "Runtime", ["95"]⟩], none⟩ "u" "t"
      = .ok ⟨"u", "t", none, none, none, none, some "1h 35m", none, none, none, none, none,
          none⟩ := by
  refine ⟨?_, ?_, by decide, by decide, by decide⟩
  · intro d N h1 h2 h3
    have hcond : ¬('h' ∈ d.toList.map pyLower ∨ 'm' ∈ d.toList.map pyLower) :=
      not_or.mpr ⟨h1, h2⟩
    constructor
    · intro hN
      simp only [formatDuration]
      rw [if_neg hcond, h3]
      simp only
      rw [if_neg (by omega)]
    · intro hN
      simp only [formatDuration]
      rw [if_neg hcond, h3]
      simp only
      rw [if_pos (by omega)]
  · intro d hd
    simp only [formatDuration]
    rw [if_pos hd]

theorem claim7_duration_formatting_witness :
    formatDuration "100" = "1h 40m" ∧ formatDuration "2H" = "2H" := by
  constructor
  · have h := (claim7_duration_formatting.1 "100" 100 (by decide) (by decide) (by decide)).2
      (by decide)
    rw [h]
    decide
  · exact claim7_duration_formatting.2.1 "2H" (Or.inl (by decide))

/-! ### Claim theorems: normalize_url components -/

lemma nul_https_abs (l : List Char) (hp : hasPrefixL "https://".toList l = true) :
    normalize_url_list l = rebuildCore l := by
  have hne : l ≠ [] := by
    cases l with
    | nil => exact absurd hp (by decide)
    | cons a as => exact List.cons_ne_nil a as
  unfold normalize_url_list
  rw [if_neg hne, hp]
  simp only [Bool.or_true, if_true]

lemma nul_http_abs (l : List Char) (hp : hasPrefixL "http://".toList l = true) :
    normalize_url_list l = rebuildCore l := by
  have hne : l ≠ [] := by
    cases l with
    | nil => exact absurd hp (by decide)
    | cons a as => exact List.cons_ne_nil a as
  unfold normalize_url_list
  rw [if_neg hne, hp]
  simp only [Bool.true_or, if_true]

lemma nul_rel_slash (rest : List Char) (h : rest.take 1 ≠ ['/']) :
    normalize_url_list ('/' :: rest)
      = normalize_url_list ("https://www.rottentomatoes.com".toList ++ '/' :: rest) := by
  have h2 : ¬(('/' :: rest).take 2 = ['/', '/']) := by
    rw [List.take_succ_cons]
    intro hcon
    exact h (List.cons.inj hcon).2
  rw [nul_https_abs ("https://www.rottentomatoes.com".toList ++ '/' :: rest) rfl]
  unfold normalize_url_list
  rw [if_neg (List.cons_ne_nil _ _),
    show hasPrefixL "http://".toList ('/' :: rest) = false from rfl,
    show hasPrefixL "https://".toList ('/' :: rest) = false from rfl]
  simp only [Bool.or_self]
  rw [if_neg (by simp), if_neg h2,
    if_pos (show ('/' :: rest).take 1 = ['/'] from rfl)]

lemma nul_protocol_rel (rest : List Char) :
    normalize_url_list ('/' :: '/' :: rest)
      = normalize_url_list ("https:".toList ++ '/' :: '/' :: rest) := by
  rw [nul_https_abs ("https:".toList ++ '/' :: '/' :: rest) rfl]
  unfold normalize_url_list
  rw [if_neg (List.cons_ne_nil _ _),
    show hasPrefixL "http://".toList ('/' :: '/' :: rest) = false from rfl,
    show hasPrefixL "https://".toList ('/' :: '/' :: rest) = false from rfl]
  simp only [Bool.or_self]
  rw [if_neg (by simp), if_pos (show ('/' :: '/' :: rest).take 2 = ['/', '/'] from rfl)]

/-! ### Claim theorems: normalize_title insensitivity -/

lemma words_cons_space {c : Char} (rest : List Char) (h : pySpace c = true) :
    words (c :: rest) = words rest := by
  simp [words, wordsAux, h]

lemma wordsAux_acc : ∀ (l acc : List Char), acc ≠ [] →
    wordsAux acc l
      = (acc.reverse ++ l.takeWhile (fun x => !pySpace x))
        :: words (l.dropWhile (fun x => !pySpace x)) := by
  intro l
  induction l with
  | nil =>
    intro acc hacc
    simp [wordsAux, hacc, words]
  | cons c rest ih =>
    intro acc hacc
    by_cases hc : pySpace c = true
    · rw [show wordsAux acc (c :: rest)
          = if pySpace c then
              (if acc = [] then wordsAux [] rest else acc.reverse :: wordsAux [] rest)
            else wordsAux (c :: acc) rest from rfl, hc]
      simp only [if_true, if_neg hacc]
      rw [List.takeWhile_cons, List.dropWhile_cons]
      simp only [hc, Bool.not_true, Bool.false_eq_true, if_false]
      rw [List.append_nil, words_cons_space rest hc]
      rfl
    · have hc' : pySpace c = false := by revert hc; cases pySpace c <;> simp
      rw [show wordsAux acc (c :: rest)
          = if pySpace c then
              (if acc = [] then wordsAux [] rest else acc.reverse :: wordsAux [] rest)
            else wordsAux (c :: acc) rest from rfl, hc']
      simp only [Bool.false_eq_true, if_false]
      rw [ih (c :: acc) (List.cons_ne_nil c acc)]
      rw [List.takeWhile_cons, List.dropWhile_cons]
      simp [hc', List.append_assoc]

lemma words_cons_word {c : Char} (rest : List Char) (h : pySpace c = false) :
    words (c :: rest)
      = (c :: rest.takeWhile (fun x => !pySpace x))
        :: words (rest.dropWhile (fun x => !pySpace x)) := by
  have h1 : words (c :: rest) = wordsAux [c] rest := by
    simp [words, wordsAux, h]
  rw [h1, wordsAux_acc rest [c] (List.cons_ne_nil c [])]
  rfl

lemma words_eq_nil_iff {l : List Char} : words l = [] ↔ ∀ c ∈ l, pySpace c = true := by
  induction l with
  | nil => simp [words, wordsAux]
  | cons c rest ih =>
    by_cases hc : pySpace c = true
    · rw [words_cons_space rest hc]
      constructor
      · intro h x hx
        rcases List.mem_cons.mp hx with h' | h'
        · subst h'; exact hc
        · exact ih.mp h x h'
      · intro h
        exact ih.mpr (fun x hx => h x (List.mem_cons_of_mem c hx))
    · have hc' : pySpace c = false := by revert hc; cases pySpace c <;> simp
      rw [words_cons_word rest hc']
      constructor
      · intro h; exact absurd h (List.cons_ne_nil _ _)
      · intro h
        rw [h c (List.mem_cons_self c rest)] at hc'
        exact absurd hc' (by simp)

lemma collapseWS_id {l : List Char} (h : ∀ x ∈ l, pySpace x = false) :
    collapseWS l = l := by
  induction l with
  | nil => rfl
  | cons c rest ih =>
    have hc := h c (List.mem_cons_self c rest)
    cases rest with
    | nil => simp [collapseWS, hc]
    | cons d rest2 =>
      rw [show collapseWS (c :: d :: rest2)
          = if pySpace c && pySpace d then collapseWS (d :: rest2)
            else (if pySpace c then ' ' else c) :: collapseWS (d :: rest2) from rfl, hc]
      simp only [Bool.false_and, Bool.false_eq_true, if_false]
      rw [ih (fun x hx => h x (List.mem_cons_of_mem c hx))]

lemma collapseWS_append_left {A B : List Char} (h : ∀ x ∈ A, pySpace x = false) :
    collapseWS (A ++ B) = A ++ collapseWS B := by
  induction A with
  | nil => rfl
  | cons a A ih =>
    have ha := h a (List.mem_cons_self a A)
    cases hAB : A ++ B with
    | nil =>
      have hA : A = [] := (List.append_eq_nil.mp hAB).1
      have hB : B = [] := (List.append_eq_nil.mp hAB).2
      subst hA; subst hB
      simp [collapseWS, ha]
    | cons x xs =>
      rw [List.cons_append, hAB]
      rw [show collapseWS (a :: x :: xs)
          = if pySpace a && pySpace x then collapseWS (x :: xs)
            else (if pySpace a then ' ' else a) :: collapseWS (x :: xs) from rfl, ha]
      simp only [Bool.false_and, Bool.false_eq_true, if_false]
      rw [← hAB, ih (fun x hx => h x (List.mem_cons_of_mem a hx)), List.cons_append]

lemma collapseWS_cons_space : ∀ (X : List Char) (s : Char), pySpace s = true →
    collapseWS (s :: X) = ' ' :: collapseWS (X.dropWhile pySpace) := by
  intro X
  induction X with
  | nil => intro s hs; simp [collapseWS, hs]
  | cons y X ih =>
    intro s hs
    by_cases hy : pySpace y = true
    · rw [show collapseWS (s :: y :: X)
          = if pySpace s && pySpace y then collapseWS (y :: X)
            else (if pySpace s then ' ' else s) :: collapseWS (y :: X) from rfl, hs, hy]
      simp only [Bool.and_self, if_true]
      rw [List.dropWhile_cons]
      simp only [hy, if_true]
      exact ih y hy
    · have hy' : pySpace y = false := by revert hy; cases pySpace y <;> simp
      rw [show collapseWS (s :: y :: X)
          = if pySpace s && pySpace y then collapseWS (y :: X)
            else (if pySpace s then ' ' else s) :: collapseWS (y :: X) from rfl, hs, hy']
      simp only [Bool.and_false, Bool.false_eq_true, if_false, if_true]
      rw [List.dropWhile_cons]
      simp [hy']

lemma dropWhile_dropTrail_comm (p : Char → Bool) (l : List Char) :
    (dropTrail p l).dropWhile p = dropTrail p (l.dropWhile p) := by
  cases hA : l.dropWhile p with
  | nil =>
    have hall : ∀ c ∈ l, p c = true := by
      intro c hc
      rw [← List.takeWhile_append_dropWhile p l, hA, List.append_nil] at hc
      exact List.mem_takeWhile_imp hc
    rw [dropTrail_eq_nil_iff.mpr hall]
    rfl
  | cons x xs =>
    have hwne : l.dropWhile p ≠ [] := by rw [hA]; exact List.cons_ne_nil _ _
    have hx : p x = false := by
      have h0 := List.head_dropWhile_not p l hwne
      rwa [show (l.dropWhile p).head hwne = x by
        rw [List.head_eq_iff_head?_eq_some, hA]; rfl] at h0
    cases hdtA : dropTrail p (x :: xs) with
    | nil =>
      have : p x = true := dropTrail_eq_nil_iff.mp hdtA x (List.mem_cons_self x xs)
      rw [hx] at this
      exact absurd this (by simp)
    | cons y ys =>
      have hdtne : dropTrail p (x :: xs) ≠ [] := by
        rw [hdtA]; exact List.cons_ne_nil _ _
      have h1 : dropTrail p l = l.takeWhile p ++ dropTrail p (x :: xs) := by
        conv_lhs => rw [← List.takeWhile_append_dropWhile p l, hA]
        exact dropTrail_append_right hdtne
      have hyx : y = x := by
        have hh := dropTrail_head hdtne
        rw [hdtA] at hh
        simpa using hh
      rw [h1, List.dropWhile_append]
      have hSd : (List.dropWhile p (l.takeWhile p)).isEmpty = true := by
        rw [List.isEmpty_iff, List.dropWhile_eq_nil_iff]
        intro z hz
        exact List.mem_takeWhile_imp hz
      rw [if_pos hSd, hdtA, List.dropWhile_cons, hyx, hx]
      simp

lemma collapseWS_stripL_eq_spaceJoin : ∀ l : List Char,
    collapseWS (stripL l) = spaceJoin (words l) := by
  suffices h : ∀ (n : Nat) (l : List Char), l.length ≤ n →
      collapseWS (stripL l) = spaceJoin (words l) by
    intro l
    exact h l.length l (Nat.le_refl _)
  intro n
  induction n with
  | zero =>
    intro l hl
    have : l = [] := List.eq_nil_of_length_eq_zero (Nat.le_zero.mp hl)
    subst this
    rfl
  | succ n ih =>
    intro l hl
    cases l with
    | nil => rfl
    | cons c rest =>
      have hlr : rest.length ≤ n := by
        rw [List.length_cons] at hl
        omega
      by_cases hc : pySpace c = true
      · have h1 : stripL (c :: rest) = stripL rest := by
          unfold stripL
          rw [List.dropWhile_cons]
          simp [hc]
        rw [h1, words_cons_space rest hc]
        exact ih rest hlr
      · have hc' : pySpace c = false := by revert hc; cases pySpace c <;> simp
        have hrest : rest
            = rest.takeWhile (fun x => !pySpace x) ++ rest.dropWhile (fun x => !pySpace x) :=
          (List.takeWhile_append_dropWhile _ _).symm
        have hwns : ∀ x ∈ c :: rest.takeWhile (fun x => !pySpace x), pySpace x = false := by
          intro x hx
          rcases List.mem_cons.mp hx with h' | h'
          · subst h'; exact hc'
          · have h2 := List.mem_takeWhile_imp h'
            simpa using h2
        have hwords := words_cons_word rest hc'
        have hstrip : stripL (c :: rest) = dropTrail pySpace (c :: rest) := by
          unfold stripL
          rw [List.dropWhile_cons]
          simp [hc']
        have hsplit : c :: rest
            = (c :: rest.takeWhile (fun x => !pySpace x))
              ++ rest.dropWhile (fun x => !pySpace x) := by
          conv_lhs => rw [hrest]
          rw [List.cons_append]
        by_cases hr : words (rest.dropWhile (fun x => !pySpace x)) = []
        · have hrsp := words_eq_nil_iff.mp hr
          have h2 : dropTrail pySpace (c :: rest)
              = c :: rest.takeWhile (fun x => !pySpace x) := by
            rw [hsplit, dropTrail_append_left hwns, dropTrail_eq_nil_iff.mpr hrsp,
              List.append_nil]
          rw [hstrip, h2, collapseWS_id hwns, hwords, hr]
          rfl
        · obtain ⟨s, r', hsr⟩ : ∃ s r',
              rest.dropWhile (fun x => !pySpace x) = s :: r' := by
            cases hrc : rest.dropWhile (fun x => !pySpace x) with
            | nil => rw [hrc] at hr; exact absurd rfl hr
            | cons s r' => exact ⟨s, r', rfl⟩
          have hs : pySpace s = true := by
            have hne : rest.dropWhile (fun x => !pySpace x) ≠ [] := by
              rw [hsr]; exact List.cons_ne_nil _ _
            have h0 := List.head_dropWhile_not (fun x => !pySpace x) rest hne
            rw [show (rest.dropWhile (fun x => !pySpace x)).head hne = s by
              rw [List.head_eq_iff_head?_eq_some, hsr]; rfl] at h0
            simpa using h0
          have hrne : dropTrail pySpace (rest.dropWhile (fun x => !pySpace x)) ≠ [] := by
            intro hcon
            exact hr (words_eq_nil_iff.mpr (dropTrail_eq_nil_iff.mp hcon))
          have h2 : dropTrail pySpace (c :: rest)
              = (c :: rest.takeWhile (fun x => !pySpace x))
                ++ dropTrail pySpace (rest.dropWhile (fun x => !pySpace x)) := by
            rw [hsplit]
            exact dropTrail_append_right hrne
          have h3 : dropTrail pySpace (rest.dropWhile (fun x => !pySpace x))
              = s :: dropTrail pySpace r' ∧ dropTrail pySpace r' ≠ [] := by
            cases hdt : dropTrail pySpace r' with
            | nil =>
              have hr'sp := dropTrail_eq_nil_iff.mp hdt
              have hallr : ∀ x ∈ rest.dropWhile (fun x => !pySpace x), pySpace x = true := by
                rw [hsr]
                intro x hx
                rcases List.mem_cons.mp hx with h' | h'
                · subst h'; exact hs
                · exact hr'sp x h'
              exact absurd (dropTrail_eq_nil_iff.mpr hallr) hrne
            | cons y ys =>
              have hne' : dropTrail pySpace r' ≠ [] := by
                rw [hdt]; exact List.cons_ne_nil _ _
              constructor
              · rw [hsr, dropTrail_cons_of_tail_ne hne', hdt]
              · exact List.cons_ne_nil y ys
          have hlen : r'.length ≤ n := by
            have hrl : rest.length
                = (rest.takeWhile (fun x => !pySpace x)).length + (r'.length + 1) := by
              conv_lhs => rw [hrest]
              rw [List.length_append, hsr, List.length_cons]
            omega
          have hwr' : words (rest.dropWhile (fun x => !pySpace x)) = words r' := by
            rw [hsr, words_cons_space r' hs]
          rw [hstrip, h2, collapseWS_append_left hwns, h3.1,
            collapseWS_cons_space (dropTrail pySpace r') s hs, dropWhile_dropTrail_comm,
            show dropTrail pySpace (r'.dropWhile pySpace) = stripL r' from rfl,
            ih r' hlen, hwords, hwr']
          cases hws : words r' with
          | nil => exact absurd (hwr'.trans hws) hr
          | cons ww wws => rfl

lemma normalize_title_list_eq (l : List Char) :
    normalize_title_list l
      = (collapseWS (stripL (l.map pyLower))).filter (fun c => pyWord c || pySpace c) := by
  cases l with
  | nil => rfl
  | cons c rest =>
    unfold normalize_title_list
    rw [if_neg (by simp)]

/-- Claim C6 counterexample: the titles a-space-bang-space-b and
a-space-space-b differ only by the punctuation character between the
spaces, yet they normalize differently: punctuation is stripped after
whitespace runs are collapsed, so space-flanked punctuation leaves a
double space behind. -/
theorem claim6_title_counterexample :
    normalize_title "a ! b" ≠ normalize_title "a  b"
    ∧ normalize_title "a ! b" = "a  b"
    ∧ normalize_title "a  b" = "a b" := by decide

/-- Claim C6 (amended): normalize_title is insensitive to letter case and
to runs of internal or outer whitespace — two titles whose lowercased
whitespace-separated word sequences agree normalize identically, and in
particular The Matrix! and the-multi-space-matrix normalize identically —
but it is not fully punctuation-insensitive: punctuation characters
flanked by whitespace leave an extra space behind. -/
theorem claim6_title_insensitivity :
    (∀ s t : String,
      words (s.toList.map pyLower) = words (t.toList.map pyLower) →
      normalize_title s = normalize_title t)
    ∧ normalize_title "The Matrix!" = normalize_title "the   matrix" := by
  constructor
  · intro s t h
    unfold normalize_title
    rw [normalize_title_list_eq, normalize_title_list_eq,
      collapseWS_stripL_eq_spaceJoin, collapseWS_stripL_eq_spaceJoin, h]
  · decide

theorem claim6_title_insensitivity_witness :
    normalize_title "AB  C" = normalize_title "ab c" :=
  claim6_title_insensitivity.1 "AB  C" "ab c" (by decide)

/-! ### Claim theorems: normalize_url idempotence -/

lemma takeWhile_mem {p : Char → Bool} : ∀ {l : List Char} {c : Char},
    c ∈ l.takeWhile p → c ∈ l := by
  intro l
  induction l with
  | nil => intro c h; exact absurd h (List.not_mem_nil _)
  | cons a as ih =>
    intro c h
    rw [List.takeWhile_cons] at h
    by_cases hp : p a = true
    · rw [if_pos hp] at h
      rcases List.mem_cons.mp h with h' | h'
      · subst h'; exact List.mem_cons_self c as
      · exact List.mem_cons_of_mem a (ih h')
    · rw [if_neg hp] at h
      exact absurd h (List.not_mem_nil _)

lemma dropWhile_mem {p : Char → Bool} : ∀ {l : List Char} {c : Char},
    c ∈ l.dropWhile p → c ∈ l := by
  intro l
  induction l with
  | nil => intro c h; exact absurd h (List.not_mem_nil _)
  | cons a as ih =>
    intro c h
    rw [List.dropWhile_cons] at h
    by_cases hp : p a = true
    · rw [if_pos hp] at h
      exact List.mem_cons_of_mem a (ih h)
    · rw [if_neg hp] at h
      exact h

lemma takeWhile_head_of_ne_nil {p : Char → Bool} {l : List Char}
    (h : l.takeWhile p ≠ []) : (l.takeWhile p).head? = l.head? := by
  cases l with
  | nil => exact absurd rfl h
  | cons a as =>
    rw [List.takeWhile_cons] at h ⊢
    by_cases hp : p a = true
    · rw [if_pos hp]; rfl
    · rw [if_neg hp] at h; exact absurd rfl h

lemma takeWhile_nil_of_head_fail {p : Char → Bool} {l : List Char}
    (h : ∀ hne : l ≠ [], p (l.head hne) = false) : l.takeWhile p = [] := by
  cases l with
  | nil => rfl
  | cons a as =>
    have ha : p a = false := h (List.cons_ne_nil a as)
    rw [List.takeWhile_cons, ha]
    rfl

lemma dropWhile_self_of_head_fail {p : Char → Bool} {l : List Char}
    (h : ∀ hne : l ≠ [], p (l.head hne) = false) : l.dropWhile p = l := by
  cases l with
  | nil => rfl
  | cons a as =>
    have ha : p a = false := h (List.cons_ne_nil a as)
    rw [List.dropWhile_cons, ha]
    rfl

lemma hasPrefixL_exists : ∀ {n l : List Char}, hasPrefixL n l = true → ∃ t, l = n ++ t := by
  intro n
  induction n with
  | nil => intro l _; exact ⟨l, rfl⟩
  | cons a ns ih =>
    intro l h
    cases l with
    | nil => exact absurd h (by simp [hasPrefixL])
    | cons c cs =>
      rw [show hasPrefixL (a :: ns) (c :: cs) = (decide (a = c) && hasPrefixL ns cs) from rfl,
        Bool.and_eq_true] at h
      have hac : a = c := of_decide_eq_true h.1
      obtain ⟨t, ht⟩ := ih h.2
      exact ⟨t, by rw [ht, ← hac]; rfl⟩

lemma schemeChar_ne {c : Char} (h : schemeChar c = true) :
    c ≠ ':' ∧ c ≠ '/' ∧ c ≠ '?' ∧ c ≠ '#' ∧ c ≠ ';' := by
  refine ⟨?_, ?_, ?_, ?_, ?_⟩ <;> intro hc <;> subst hc <;> exact absurd h (by decide)

lemma netlocChar_true_ne {c : Char} (h : netlocChar c = true) :
    c ≠ '/' ∧ c ≠ '?' ∧ c ≠ '#' := by
  unfold netlocChar at h
  simp only [Bool.not_eq_eq_eq_not, Bool.not_true, Bool.or_eq_false_iff,
    decide_eq_false_iff_not] at h
  exact ⟨h.1.1, h.1.2, h.2⟩

lemma netlocChar_false_cases {c : Char} (h : netlocChar c = false) :
    c = '/' ∨ c = '?' ∨ c = '#' := by
  unfold netlocChar at h
  simp only [Bool.not_eq_eq_eq_not, Bool.not_false, Bool.or_eq_true_iff,
    decide_eq_true_eq] at h
  rcases h with (h | h) | h
  · exact Or.inl h
  · exact Or.inr (Or.inl h)
  · exact Or.inr (Or.inr h)

lemma splitparams_no_semi {p : List Char} (h : ';' ∉ p) : splitparams p = p := by
  unfold splitparams
  rw [if_neg h]

lemma schemeSplitAux_append : ∀ {sch : List Char} (t : List Char),
    (∀ c ∈ sch, schemeChar c = true) →
    schemeSplitAux (sch ++ ':' :: t) = some (sch, t) := by
  intro sch
  induction sch with
  | nil => intro t _; rfl
  | cons a sch ih =>
    intro t h
    have ha := h a (List.mem_cons_self a sch)
    have hne : ¬(a = ':') := (schemeChar_ne ha).1
    rw [List.cons_append,
      show schemeSplitAux (a :: (sch ++ ':' :: t))
        = if a = ':' then some ([], sch ++ ':' :: t)
          else if schemeChar a then
            match schemeSplitAux (sch ++ ':' :: t) with
            | some (s, r) => some (a :: s, r)
            | none => none
          else none from rfl,
      if_neg hne, if_pos ha, ih t (fun c hc => h c (List.mem_cons_of_mem a hc))]

lemma splitScheme_append (a : Char) (sch' t : List Char) (ha : a.isAlpha = true)
    (hsc : ∀ c ∈ a :: sch', schemeChar c = true) :
    splitScheme ((a :: sch') ++ ':' :: t) = some (a :: sch', t) := by
  rw [List.cons_append,
    show splitScheme (a :: (sch' ++ ':' :: t))
      = if a.isAlpha then schemeSplitAux (a :: (sch' ++ ':' :: t)) else none from rfl,
    if_pos ha, ← List.cons_append]
  exact schemeSplitAux_append t hsc

lemma nul_alpha_head (a : Char) (l : List Char) (ha : a.isAlpha = true) :
    normalize_url_list (a :: l) = rebuildCore (a :: l) := by
  have ha' : ¬(a = '/') := by intro hc; subst hc; exact absurd ha (by decide)
  unfold normalize_url_list
  rw [if_neg (List.cons_ne_nil a l)]
  by_cases hp : (hasPrefixL "http://".toList (a :: l)
      || hasPrefixL "https://".toList (a :: l)) = true
  · rw [if_pos hp]
  · rw [if_neg hp,
      if_neg (show ¬((a :: l).take 2 = ['/', '/']) from fun hcon => by
        rw [List.take_succ_cons] at hcon
        exact ha' (List.cons.inj hcon).1),
      if_neg (show ¬((a :: l).take 1 = ['/']) from fun hcon => by
        rw [List.take_succ_cons] at hcon
        exact ha' (List.cons.inj hcon).1)]

lemma dropTrail_slash_rebuild (sch N P : List Char)
    (hN : ∀ c ∈ N, (fun c => decide (c = '/')) c = false)
    (hne : ¬(N = [] ∧ dropTrail (fun c => c = '/') P = [])) :
    dropTrail (fun c => c = '/') (sch ++ ':' :: '/' :: '/' :: (N ++ P))
      = sch ++ ':' :: '/' :: '/' :: (N ++ dropTrail (fun c => c = '/') P) := by
  have h1 : dropTrail (fun c => c = '/') (N ++ P) = N ++ dropTrail (fun c => c = '/') P :=
    dropTrail_append_left hN
  have h2 : N ++ dropTrail (fun c => c = '/') P ≠ [] := by
    intro hcon
    exact hne ⟨(List.append_eq_nil.mp hcon).1, (List.append_eq_nil.mp hcon).2⟩
  have h3 : sch ++ ':' :: '/' :: '/' :: (N ++ P)
      = (sch ++ [':', '/', '/']) ++ (N ++ P) :=
    (List.append_assoc sch [':', '/', '/'] (N ++ P)).symm
  rw [h3, dropTrail_append_right (by rw [h1]; exact h2), h1, List.append_assoc]
  rfl

lemma urlparse3_form (a : Char) (sch' t : List Char)
    (ha : a.isAlpha = true)
    (hsc : ∀ c ∈ a :: sch', schemeChar c = true)
    (hlow : (a :: sch').map pyLower = a :: sch')
    (hsemi : ';' ∉ t) :
    urlparse3 ((a :: sch') ++ ':' :: '/' :: '/' :: t)
      = if ('[' ∈ t.takeWhile netlocChar ∧ ']' ∉ t.takeWhile netlocChar)
          ∨ (']' ∈ t.takeWhile netlocChar ∧ '[' ∉ t.takeWhile netlocChar) then .error ()
        else .ok (a :: sch', t.takeWhile netlocChar,
          ((t.dropWhile netlocChar).takeWhile (fun c => !(c = '#'))).takeWhile
            (fun c => !(c = '?'))) := by
  have hsemi2 : ';' ∉ ((t.dropWhile netlocChar).takeWhile
      (fun c => !(c = '#'))).takeWhile (fun c => !(c = '?')) := by
    intro hmem
    exact hsemi (dropWhile_mem (takeWhile_mem (takeWhile_mem hmem)))
  unfold urlparse3
  rw [splitScheme_append a sch' ('/' :: '/' :: t) ha hsc]
  dsimp only
  rw [hlow, if_pos (show List.take 2 ('/' :: '/' :: t) = ['/', '/'] from rfl),
    show List.drop 2 ('/' :: '/' :: t) = t from rfl, splitparams_no_semi hsemi2]

lemma urlparse3_scheme_colon (a : Char) (sch' : List Char)
    (ha : a.isAlpha = true)
    (hsc : ∀ c ∈ a :: sch', schemeChar c = true)
    (hlow : (a :: sch').map pyLower = a :: sch') :
    urlparse3 ((a :: sch') ++ [':']) = .ok (a :: sch', [], []) := by
  unfold urlparse3
  rw [show (a :: sch') ++ [':'] = (a :: sch') ++ ':' :: ([] : List Char) from rfl,
    splitScheme_append a sch' [] ha hsc]
  dsimp only
  rw [hlow, if_neg (show ¬(List.take 2 ([] : List Char) = ['/', '/']) by decide)]
  rfl

lemma dq_head_slash (t : List Char) (q1 q2 : Char → Bool)
    (hs1 : q1 '/' = true) (hs2 : q2 '/' = true)
    (hq : q1 '?' = false ∨ q2 '?' = false)
    (hh : q1 '#' = false ∨ q2 '#' = false) :
    ((t.dropWhile netlocChar).takeWhile q1).takeWhile q2 = []
      ∨ ∃ Y2, ((t.dropWhile netlocChar).takeWhile q1).takeWhile q2 = '/' :: Y2 := by
  cases hw : t.dropWhile netlocChar with
  | nil => left; rfl
  | cons x w2 =>
    have hne : t.dropWhile netlocChar ≠ [] := by rw [hw]; exact List.cons_ne_nil _ _
    have hx : netlocChar x = false := by
      have h0 := List.head_dropWhile_not netlocChar t hne
      rwa [show (t.dropWhile netlocChar).head hne = x by
        rw [List.head_eq_iff_head?_eq_some, hw]; rfl] at h0
    rcases netlocChar_false_cases hx with h | h | h
    · subst h
      right
      rw [List.takeWhile_cons, if_pos hs1, List.takeWhile_cons, if_pos hs2]
      exact ⟨_, rfl⟩
    · subst h
      left
      rcases hq with hq | hq
      · rw [List.takeWhile_cons, hq]
        simp
      · by_cases hq1 : q1 '?' = true
        · rw [List.takeWhile_cons, if_pos hq1, List.takeWhile_cons, hq]
          simp
        · rw [List.takeWhile_cons, if_neg hq1]
          rfl
    · subst h
      left
      rcases hh with hh | hh
      · rw [List.takeWhile_cons, hh]
        simp
      · by_cases hq1 : q1 '#' = true
        · rw [List.takeWhile_cons, if_pos hq1, List.takeWhile_cons, hh]
          simp
        · rw [List.takeWhile_cons, if_neg hq1]
          rfl

lemma head_slash_of_dropTrail {Y : List Char} {p : Char → Bool}
    (hY : Y = [] ∨ ∃ Y2, Y = '/' :: Y2)
    (hne : dropTrail p Y ≠ []) : ∃ X2, dropTrail p Y = '/' :: X2 := by
  rcases hY with h | ⟨Y2, h⟩
  · subst h; exact absurd rfl hne
  · subst h
    have hh := dropTrail_head hne
    cases hX : dropTrail p ('/' :: Y2) with
    | nil => exact absurd hX hne
    | cons x xs =>
      rw [hX] at hh
      have hx : x = '/' := by simpa using hh
      exact ⟨xs, by rw [hx]⟩

lemma nul_canonical_fixed (a : Char) (sch' N X : List Char)
    (ha : a.isAlpha = true)
    (hsc : ∀ c ∈ a :: sch', schemeChar c = true)
    (hlow : (a :: sch').map pyLower = a :: sch')
    (hN : ∀ c ∈ N, netlocChar c = true)
    (hsemi : ';' ∉ N ++ X)
    (hXhead : X = [] ∨ ∃ X2, X = '/' :: X2)
    (hXfix : dropTrail (fun c => c = '/') X = X)
    (hXq : ∀ c ∈ X, ¬(c = '?'))
    (hXh : ∀ c ∈ X, ¬(c = '#'))
    (hne : ¬(N = [] ∧ X = [])) :
    normalize_url_list ((a :: sch') ++ ':' :: '/' :: '/' :: (N ++ X))
      = (a :: sch') ++ ':' :: '/' :: '/' :: (N ++ X) := by
  have hNq : ∀ c ∈ N, ¬(c = '?') := fun c hc => (netlocChar_true_ne (hN c hc)).2.1
  have hNh : ∀ c ∈ N, ¬(c = '#') := fun c hc => (netlocChar_true_ne (hN c hc)).2.2
  have hNs : ∀ c ∈ N, ¬(c = '/') := fun c hc => (netlocChar_true_ne (hN c hc)).1
  have hfix : dropTrail (fun c => c = '/') ((a :: sch') ++ ':' :: '/' :: '/' :: (N ++ X))
      = (a :: sch') ++ ':' :: '/' :: '/' :: (N ++ X) := by
    have h1 := dropTrail_slash_rebuild (a :: sch') N X
      (fun c hc => by simp [hNs c hc]) (by rw [hXfix]; exact hne)
    rw [hXfix] at h1
    exact h1
  have hNtake : (N ++ X).takeWhile netlocChar = N := by
    rw [takeWhile_append_of_all hN]
    rcases hXhead with h | ⟨X2, h⟩
    · rw [h]; simp
    · rw [h, List.takeWhile_cons, show netlocChar '/' = false from rfl]
      simp
  have hNdrop : (N ++ X).dropWhile netlocChar = X := by
    rw [dropWhile_append_of_all hN]
    rcases hXhead with h | ⟨X2, h⟩
    · rw [h]; simp
    · rw [h, List.dropWhile_cons, show netlocChar '/' = false from rfl]
      simp
  have hcons : (a :: sch') ++ ':' :: '/' :: '/' :: (N ++ X)
      = a :: (sch' ++ ':' :: '/' :: '/' :: (N ++ X)) := rfl
  rw [hcons, nul_alpha_head a _ ha, ← hcons]
  unfold rebuildCore
  rw [urlparse3_form a sch' (N ++ X) ha hsc hlow hsemi, hNtake, hNdrop]
  by_cases hbr : ('[' ∈ N ∧ ']' ∉ N) ∨ (']' ∈ N ∧ '[' ∉ N)
  · rw [if_pos hbr]
    dsimp only
    have hU : ∀ c ∈ (a :: sch') ++ ':' :: '/' :: '/' :: (N ++ X),
        ¬(c = '?') ∧ ¬(c = '#') := by
      intro c hc
      rcases List.mem_append.mp hc with h | h
      · have hs := schemeChar_ne (hsc c h)
        exact ⟨hs.2.2.1, hs.2.2.2.1⟩
      · rcases List.mem_cons.mp h with h1 | h
        · subst h1; exact ⟨by decide, by decide⟩
        · rcases List.mem_cons.mp h with h1 | h
          · subst h1; exact ⟨by decide, by decide⟩
          · rcases List.mem_cons.mp h with h1 | h
            · subst h1; exact ⟨by decide, by decide⟩
            · rcases List.mem_append.mp h with h1 | h1
              · exact ⟨hNq c h1, hNh c h1⟩
              · exact ⟨hXq c h1, hXh c h1⟩
    have e1 : ((a :: sch') ++ ':' :: '/' :: '/' :: (N ++ X)).takeWhile (fun c => !(c = '?'))
        = (a :: sch') ++ ':' :: '/' :: '/' :: (N ++ X) :=
      takeWhile_eq_self_of_all (fun c hc => by simp [(hU c hc).1])
    have e2 : ((a :: sch') ++ ':' :: '/' :: '/' :: (N ++ X)).takeWhile (fun c => !(c = '#'))
        = (a :: sch') ++ ':' :: '/' :: '/' :: (N ++ X) :=
      takeWhile_eq_self_of_all (fun c hc => by simp [(hU c hc).2])
    rw [e1, e2, hfix]
  · rw [if_neg hbr]
    dsimp only
    have e1 : X.takeWhile (fun c => !(c = '#')) = X :=
      takeWhile_eq_self_of_all (fun c hc => by simp [hXh c hc])
    have e2 : X.takeWhile (fun c => !(c = '?')) = X :=
      takeWhile_eq_self_of_all (fun c hc => by simp [hXq c hc])
    rw [e1, e2, hfix]

lemma nul_scheme_colon_fixed (a : Char) (sch' : List Char)
    (ha : a.isAlpha = true)
    (hsc : ∀ c ∈ a :: sch', schemeChar c = true)
    (hlow : (a :: sch').map pyLower = a :: sch') :
    normalize_url_list ((a :: sch') ++ [':']) = (a :: sch') ++ [':'] := by
  have hcons : (a :: sch') ++ [':'] = a :: (sch' ++ [':']) := rfl
  rw [hcons, nul_alpha_head a _ ha, ← hcons]
  unfold rebuildCore
  rw [urlparse3_scheme_colon a sch' ha hsc hlow]
  dsimp only
  have hnos : ∀ c ∈ (a :: sch') ++ [':'], (fun c => decide (c = '/')) c = false := by
    intro c hc
    rcases List.mem_append.mp hc with h | h
    · simp [(schemeChar_ne (hsc c h)).2.1]
    · rcases List.mem_cons.mp h with h1 | h1
      · subst h1; decide
      · exact absurd h1 (List.not_mem_nil c)
  have h1 : (a :: sch') ++ ':' :: '/' :: '/' :: (([] : List Char) ++ [])
      = ((a :: sch') ++ [':']) ++ ['/', '/'] := by
    rw [List.append_assoc]
    rfl
  rw [h1, dropTrail_append_left hnos,
    show dropTrail (fun c => c = '/') (['/', '/'] : List Char) = [] by decide,
    List.append_nil]

lemma rebuildCore_idem (a : Char) (sch' t : List Char)
    (ha : a.isAlpha = true)
    (hsc : ∀ c ∈ a :: sch', schemeChar c = true)
    (hlow : (a :: sch').map pyLower = a :: sch')
    (hsemi : ';' ∉ t) :
    normalize_url_list (rebuildCore ((a :: sch') ++ ':' :: '/' :: '/' :: t))
      = rebuildCore ((a :: sch') ++ ':' :: '/' :: '/' :: t) := by
  have hNmem : ∀ c ∈ t.takeWhile netlocChar, netlocChar c = true :=
    fun c hc => List.mem_takeWhile_imp hc
  have hNs : ∀ c ∈ t.takeWhile netlocChar, (fun c => decide (c = '/')) c = false :=
    fun c hc => by simp [(netlocChar_true_ne (hNmem c hc)).1]
  have htw : t = t.takeWhile netlocChar ++ t.dropWhile netlocChar :=
    (List.takeWhile_append_dropWhile _ _).symm
  unfold rebuildCore
  rw [urlparse3_form a sch' t ha hsc hlow hsemi]
  by_cases hbr : ('[' ∈ t.takeWhile netlocChar ∧ ']' ∉ t.takeWhile netlocChar)
      ∨ (']' ∈ t.takeWhile netlocChar ∧ '[' ∉ t.takeWhile netlocChar)
  · rw [if_pos hbr]
    dsimp only
    have hNne : t.takeWhile netlocChar ≠ [] := by
      rcases hbr with ⟨h1, _⟩ | ⟨h1, _⟩ <;> exact List.ne_nil_of_mem h1
    have hA : ∀ c ∈ (a :: sch') ++ [':', '/', '/'], ¬(c = '?') ∧ ¬(c = '#') := by
      intro c hc
      rcases List.mem_append.mp hc with h | h
      · have hs := schemeChar_ne (hsc c h)
        exact ⟨hs.2.2.1, hs.2.2.2.1⟩
      · rcases List.mem_cons.mp h with h1 | h
        · subst h1; exact ⟨by decide, by decide⟩
        · rcases List.mem_cons.mp h with h1 | h
          · subst h1; exact ⟨by decide, by decide⟩
          · rcases List.mem_cons.mp h with h1 | h
            · subst h1; exact ⟨by decide, by decide⟩
            · exact absurd h (List.not_mem_nil c)
    have hshape : (a :: sch') ++ ':' :: '/' :: '/' :: t
        = ((a :: sch') ++ [':', '/', '/']) ++ t :=
      (List.append_assoc (a :: sch') [':', '/', '/'] t).symm
    have e1 : ((a :: sch') ++ ':' :: '/' :: '/' :: t).takeWhile (fun c => !(c = '?'))
        = ((a :: sch') ++ [':', '/', '/'])
          ++ (t.takeWhile netlocChar
              ++ (t.dropWhile netlocChar).takeWhile (fun c => !(c = '?'))) := by
      rw [hshape, takeWhile_append_of_all (fun c hc => by simp [(hA c hc).1])]
      conv_lhs => rw [htw]
      rw [takeWhile_append_of_all
        (fun c hc => by simp [(netlocChar_true_ne (hNmem c hc)).2.1])]
    have e2 : (((a :: sch') ++ [':', '/', '/'])
          ++ (t.takeWhile netlocChar
              ++ (t.dropWhile netlocChar).takeWhile (fun c => !(c = '?')))).takeWhile
            (fun c => !(c = '#'))
        = ((a :: sch') ++ [':', '/', '/'])
          ++ (t.takeWhile netlocChar
              ++ ((t.dropWhile netlocChar).takeWhile (fun c => !(c = '?'))).takeWhile
                (fun c => !(c = '#'))) := by
      rw [takeWhile_append_of_all (fun c hc => by simp [(hA c hc).2]),
        takeWhile_append_of_all
          (fun c hc => by simp [(netlocChar_true_ne (hNmem c hc)).2.2])]
    rw [e1, e2,
      show ((a :: sch') ++ [':', '/', '/'])
          ++ (t.takeWhile netlocChar
              ++ ((t.dropWhile netlocChar).takeWhile (fun c => !(c = '?'))).takeWhile
                (fun c => !(c = '#')))
        = (a :: sch') ++ ':' :: '/' :: '/' ::
            (t.takeWhile netlocChar
              ++ ((t.dropWhile netlocChar).takeWhile (fun c => !(c = '?'))).takeWhile
                (fun c => !(c = '#')))
        from List.append_assoc _ _ _,
      dropTrail_slash_rebuild (a :: sch') _ _ hNs (fun hcon => hNne hcon.1)]
    exact nul_canonical_fixed a sch' (t.takeWhile netlocChar)
      (dropTrail (fun c => c = '/')
        (((t.dropWhile netlocChar).takeWhile (fun c => !(c = '?'))).takeWhile
          (fun c => !(c = '#'))))
      ha hsc hlow hNmem
      (fun hm => by
        rcases List.mem_append.mp hm with h | h
        · exact hsemi (takeWhile_mem h)
        · exact hsemi (dropWhile_mem (takeWhile_mem (takeWhile_mem (dropTrail_subset h)))))
      (by
        by_cases hX0 : dropTrail (fun c => c = '/')
            (((t.dropWhile netlocChar).takeWhile (fun c => !(c = '?'))).takeWhile
              (fun c => !(c = '#'))) = []
        · exact Or.inl hX0
        · exact Or.inr (head_slash_of_dropTrail
            (dq_head_slash t (fun c => !(c = '?')) (fun c => !(c = '#'))
              (by decide) (by decide) (Or.inl (by decide)) (Or.inr (by decide))) hX0))
      (dropTrail_idem _ _)
      (fun c hc => by
        have h1 := List.mem_takeWhile_imp (takeWhile_mem (dropTrail_subset hc))
        simpa using h1)
      (fun c hc => by
        have h1 := List.mem_takeWhile_imp (dropTrail_subset hc)
        simpa using h1)
      (fun hcon => hNne hcon.1)
  · rw [if_neg hbr]
    dsimp only
    by_cases hNP : t.takeWhile netlocChar = []
        ∧ dropTrail (fun c => c = '/')
            (((t.dropWhile netlocChar).takeWhile (fun c => !(c = '#'))).takeWhile
              (fun c => !(c = '?'))) = []
    · obtain ⟨hN0, hP0⟩ := hNP
      rw [hN0]
      have h1 : (a :: sch') ++ ':' :: '/' :: '/' ::
            (([] : List Char)
              ++ ((t.dropWhile netlocChar).takeWhile (fun c => !(c = '#'))).takeWhile
                (fun c => !(c = '?')))
          = ((a :: sch') ++ [':'])
            ++ ('/' :: '/' ::
              ((t.dropWhile netlocChar).takeWhile (fun c => !(c = '#'))).takeWhile
                (fun c => !(c = '?'))) := by
        rw [List.append_assoc]
        rfl
      have hnos : ∀ c ∈ (a :: sch') ++ [':'], (fun c => decide (c = '/')) c = false := by
        intro c hc
        rcases List.mem_append.mp hc with h | h
        · simp [(schemeChar_ne (hsc c h)).2.1]
        · rcases List.mem_cons.mp h with h1 | h1
          · subst h1; decide
          · exact absurd h1 (List.not_mem_nil c)
      have h2 : dropTrail (fun c => c = '/')
          ('/' :: '/' ::
            ((t.dropWhile netlocChar).takeWhile (fun c => !(c = '#'))).takeWhile
              (fun c => !(c = '?'))) = [] := by
        rw [dropTrail_eq_nil_iff]
        intro c hc
        rcases List.mem_cons.mp hc with h1 | h1
        · subst h1; simp
        · rcases List.mem_cons.mp h1 with h2 | h2
          · subst h2; simp
          · exact dropTrail_eq_nil_iff.mp hP0 c h2
      rw [h1, dropTrail_append_left hnos, h2, List.append_nil]
      exact nul_scheme_colon_fixed a sch' ha hsc hlow
    · rw [dropTrail_slash_rebuild (a :: sch') (t.takeWhile netlocChar)
        (((t.dropWhile netlocChar).takeWhile (fun c => !(c = '#'))).takeWhile
          (fun c => !(c = '?'))) hNs hNP]
      exact nul_canonical_fixed a sch' (t.takeWhile netlocChar)
        (dropTrail (fun c => c = '/')
          (((t.dropWhile netlocChar).takeWhile (fun c => !(c = '#'))).takeWhile
            (fun c => !(c = '?'))))
        ha hsc hlow hNmem
        (fun hm => by
          rcases List.mem_append.mp hm with h | h
          · exact hsemi (takeWhile_mem h)
          · exact hsemi (dropWhile_mem (takeWhile_mem (takeWhile_mem (dropTrail_subset h)))))
        (by
          by_cases hX0 : dropTrail (fun c => c = '/')
              (((t.dropWhile netlocChar).takeWhile (fun c => !(c = '#'))).takeWhile
                (fun c => !(c = '?'))) = []
          · exact Or.inl hX0
          · exact Or.inr (head_slash_of_dropTrail
              (dq_head_slash t (fun c => !(c = '#')) (fun c => !(c = '?'))
                (by decide) (by decide) (Or.inr (by decide)) (Or.inl (by decide))) hX0))
        (dropTrail_idem _ _)
        (fun c hc => by
          have h1 := List.mem_takeWhile_imp (dropTrail_subset hc)
          simpa using h1)
        (fun c hc => by
          have h1 := List.mem_takeWhile_imp (takeWhile_mem (dropTrail_subset hc))
          simpa using h1)
        (fun hcon => hNP ⟨hcon.1, by rw [hcon.2]⟩)

lemma nul_idem_list (L : List Char)
    (hpre : hasPrefixL "http://".toList L = true
      ∨ hasPrefixL "https://".toList L = true ∨ L.take 1 = ['/'])
    (hsemi : ';' ∉ L) :
    normalize_url_list (normalize_url_list L) = normalize_url_list L := by
  rcases hpre with hp | hp | hp
  · obtain ⟨t, ht⟩ := hasPrefixL_exists hp
    have hsemi' : ';' ∉ t := fun hm => hsemi (by rw [ht]; exact List.mem_append_right _ hm)
    have ht2 : L = ('h' :: 't' :: 't' :: 'p' :: []) ++ ':' :: '/' :: '/' :: t := ht
    rw [ht2]
    have h1 : normalize_url_list (('h' :: 't' :: 't' :: 'p' :: []) ++ ':' :: '/' :: '/' :: t)
        = rebuildCore (('h' :: 't' :: 't' :: 'p' :: []) ++ ':' :: '/' :: '/' :: t) :=
      nul_alpha_head 'h' _ (by decide)
    rw [h1]
    exact rebuildCore_idem 'h' ['t', 't', 'p'] t (by decide) (by decide) (by decide) hsemi'
  · obtain ⟨t, ht⟩ := hasPrefixL_exists hp
    have hsemi' : ';' ∉ t := fun hm => hsemi (by rw [ht]; exact List.mem_append_right _ hm)
    have ht2 : L
        = ('h' :: 't' :: 't' :: 'p' :: 's' :: []) ++ ':' :: '/' :: '/' :: t := ht
    rw [ht2]
    have h1 : normalize_url_list
          (('h' :: 't' :: 't' :: 'p' :: 's' :: []) ++ ':' :: '/' :: '/' :: t)
        = rebuildCore (('h' :: 't' :: 't' :: 'p' :: 's' :: []) ++ ':' :: '/' :: '/' :: t) :=
      nul_alpha_head 'h' _ (by decide)
    rw [h1]
    exact rebuildCore_idem 'h' ['t', 't', 'p', 's'] t (by decide) (by decide) (by decide)
      hsemi'
  · cases hL : L with
    | nil => rw [hL] at hp; exact absurd hp (by decide)
    | cons a rest =>
      rw [hL] at hp hsemi
      have ha : a = '/' := by
        rw [List.take_succ_cons, List.take_zero] at hp
        exact (List.cons.inj hp).1
      subst ha
      by_cases h2 : rest.take 1 = ['/']
      · cases rest with
        | nil => exact absurd h2 (by decide)
        | cons b rest2 =>
          have hb : b = '/' := by
            rw [List.take_succ_cons, List.take_zero] at h2
            exact (List.cons.inj h2).1
          subst hb
          rw [nul_protocol_rel rest2]
          have hsemi' : ';' ∉ rest2 := fun hm =>
            hsemi (List.mem_cons_of_mem _ (List.mem_cons_of_mem _ hm))
          show normalize_url_list (normalize_url_list
              (('h' :: 't' :: 't' :: 'p' :: 's' :: []) ++ ':' :: '/' :: '/' :: rest2))
            = normalize_url_list
              (('h' :: 't' :: 't' :: 'p' :: 's' :: []) ++ ':' :: '/' :: '/' :: rest2)
          have h1 : normalize_url_list
                (('h' :: 't' :: 't' :: 'p' :: 's' :: []) ++ ':' :: '/' :: '/' :: rest2)
              = rebuildCore
                (('h' :: 't' :: 't' :: 'p' :: 's' :: []) ++ ':' :: '/' :: '/' :: rest2) :=
            nul_alpha_head 'h' _ (by decide)
          rw [h1]
          exact rebuildCore_idem 'h' ['t', 't', 'p', 's'] rest2 (by decide) (by decide)
            (by decide) hsemi'
      · rw [nul_rel_slash rest h2]
        have hsemi' : ';' ∉ "www.rottentomatoes.com".toList ++ '/' :: rest := by
          intro hm
          rcases List.mem_append.mp hm with h | h
          · exact absurd h (by decide)
          · rcases List.mem_cons.mp h with h1 | h1
            · exact absurd h1 (by decide)
            · exact hsemi (List.mem_cons_of_mem _ h1)
        show normalize_url_list (normalize_url_list
            (('h' :: 't' :: 't' :: 'p' :: 's' :: []) ++ ':' :: '/' :: '/' ::
              ("www.rottentomatoes.com".toList ++ '/' :: rest)))
          = normalize_url_list
            (('h' :: 't' :: 't' :: 'p' :: 's' :: []) ++ ':' :: '/' :: '/' ::
              ("www.rottentomatoes.com".toList ++ '/' :: rest))
        have h1 : normalize_url_list
              (('h' :: 't' :: 't' :: 'p' :: 's' :: []) ++ ':' :: '/' :: '/' ::
                ("www.rottentomatoes.com".toList ++ '/' :: rest))
            = rebuildCore
              (('h' :: 't' :: 't' :: 'p' :: 's' :: []) ++ ':' :: '/' :: '/' ::
                ("www.rottentomatoes.com".toList ++ '/' :: rest)) :=
          nul_alpha_head 'h' _ (by decide)
        rw [h1]
        exact rebuildCore_idem 'h' ['t', 't', 'p', 's']
          ("www.rottentomatoes.com".toList ++ '/' :: rest) (by decide) (by decide)
          (by decide) hsemi'

/-- Claim C4 counterexample: normalize_url is not idempotent on every
string.  A scheme-less relative reference gains a spurious :// prefix on
every pass, and a semicolon path segment exposed by trailing-slash
stripping is cut as urlparse params on the second pass. -/
theorem claim4_normalize_url_idempotent_counterexample :
    normalize_url (normalize_url "abc") ≠ normalize_url "abc"
    ∧ normalize_url (normalize_url "http://h/a;b/") ≠ normalize_url "http://h/a;b/" := by
  decide

/-- Claim C4 (amended): normalize_url is idempotent on every href that the
site yields to the collector — one starting with http://, https://, or a
slash — provided it contains no semicolon. -/
theorem claim4_normalize_url_idempotent :
    ∀ u : String,
      (hasPrefixL "http://".toList u.toList = true
        ∨ hasPrefixL "https://".toList u.toList = true
        ∨ u.toList.take 1 = ['/']) →
      ';' ∉ u.toList →
      normalize_url (normalize_url u) = normalize_url u := by
  intro u hpre hsemi
  unfold normalize_url
  rw [show (List.asString (normalize_url_list u.toList)).toList
      = normalize_url_list u.toList from rfl]
  exact congrArg List.asString (nul_idem_list u.toList hpre hsemi)

theorem claim4_normalize_url_idempotent_witness :
    normalize_url (normalize_url "/m/foo") = normalize_url "/m/foo" :=
  claim4_normalize_url_idempotent "/m/foo" (Or.inr (Or.inr (by decide))) (by decide)

/-! ### Claim theorems: universal normalize_url component properties -/

lemma hasPrefixL_append_self : ∀ (A B : List Char), hasPrefixL A (A ++ B) = true := by
  intro A B
  induction A with
  | nil => rfl
  | cons a A ih =>
    rw [List.cons_append,
      show hasPrefixL (a :: A) (a :: (A ++ B)) = (decide (a = a) && hasPrefixL A (A ++ B))
        from rfl,
      ih]
    simp

lemma qf_of_netlocChar {c : Char} (h : netlocChar c = true) :
    (!(c = '?') && !(c = '#')) = true := by
  have h2 := netlocChar_true_ne h
  simp [h2.2.1, h2.2.2]

lemma takeWhile_qh_strip (w : List Char) :
    (((w.takeWhile (fun c => !(c = '?') && !(c = '#'))).takeWhile
        (fun c => !(c = '#'))).takeWhile (fun c => !(c = '?')))
      = (w.takeWhile (fun c => !(c = '#'))).takeWhile (fun c => !(c = '?')) := by
  induction w with
  | nil => simp
  | cons a w ih =>
    by_cases h1 : a = '?'
    · subst h1
      simp [List.takeWhile_cons]
    · by_cases h2 : a = '#'
      · subst h2
        simp [List.takeWhile_cons]
      · simp [List.takeWhile_cons, h1, h2, ih]

lemma takeWhile_hq_strip (w : List Char) :
    (((w.takeWhile (fun c => !(c = '?') && !(c = '#'))).takeWhile
        (fun c => !(c = '?'))).takeWhile (fun c => !(c = '#')))
      = (w.takeWhile (fun c => !(c = '?'))).takeWhile (fun c => !(c = '#')) := by
  induction w with
  | nil => simp
  | cons a w ih =>
    by_cases h1 : a = '?'
    · subst h1
      simp [List.takeWhile_cons]
    · by_cases h2 : a = '#'
      · subst h2
        simp [List.takeWhile_cons]
      · simp [List.takeWhile_cons, h1, h2, ih]

lemma takeWhile_netloc_strip (t : List Char) :
    (t.takeWhile (fun c => !(c = '?') && !(c = '#'))).takeWhile netlocChar
      = t.takeWhile netlocChar := by
  induction t with
  | nil => simp
  | cons a t ih =>
    by_cases hn : netlocChar a = true
    · have h3 := netlocChar_true_ne hn
      simp [List.takeWhile_cons, hn, h3.2.1, h3.2.2, ih]
    · have hn' : netlocChar a = false := by rwa [Bool.not_eq_true] at hn
      rcases netlocChar_false_cases hn' with h | h | h
      · subst h
        simp [List.takeWhile_cons, netlocChar]
      · subst h
        simp [List.takeWhile_cons, netlocChar]
      · subst h
        simp [List.takeWhile_cons, netlocChar]

lemma dropWhile_netloc_strip (t : List Char) :
    (t.takeWhile (fun c => !(c = '?') && !(c = '#'))).dropWhile netlocChar
      = (t.dropWhile netlocChar).takeWhile (fun c => !(c = '?') && !(c = '#')) := by
  induction t with
  | nil => simp
  | cons a t ih =>
    by_cases hn : netlocChar a = true
    · have h3 := netlocChar_true_ne hn
      simp [List.takeWhile_cons, List.dropWhile_cons, hn, h3.2.1, h3.2.2, ih]
    · have hn' : netlocChar a = false := by rwa [Bool.not_eq_true] at hn
      rcases netlocChar_false_cases hn' with h | h | h
      · subst h
        simp [List.takeWhile_cons, List.dropWhile_cons, netlocChar]
      · subst h
        simp [List.takeWhile_cons, List.dropWhile_cons, netlocChar]
      · subst h
        simp [List.takeWhile_cons, List.dropWhile_cons, netlocChar]

lemma urlparse3_form2 (a : Char) (sch' t : List Char)
    (ha : a.isAlpha = true)
    (hsc : ∀ c ∈ a :: sch', schemeChar c = true)
    (hlow : (a :: sch').map pyLower = a :: sch') :
    urlparse3 ((a :: sch') ++ ':' :: '/' :: '/' :: t)
      = if ('[' ∈ t.takeWhile netlocChar ∧ ']' ∉ t.takeWhile netlocChar)
          ∨ (']' ∈ t.takeWhile netlocChar ∧ '[' ∉ t.takeWhile netlocChar) then .error ()
        else .ok (a :: sch', t.takeWhile netlocChar,
          splitparams (((t.dropWhile netlocChar).takeWhile (fun c => !(c = '#'))).takeWhile
            (fun c => !(c = '?')))) := by
  unfold urlparse3
  rw [splitScheme_append a sch' ('/' :: '/' :: t) ha hsc]
  dsimp only
  rw [hlow, if_pos (show List.take 2 ('/' :: '/' :: t) = ['/', '/'] from rfl),
    show List.drop 2 ('/' :: '/' :: t) = t from rfl]

lemma url_qh_shape (a : Char) (sch' t : List Char)
    (hsc : ∀ c ∈ a :: sch', schemeChar c = true) :
    ((((a :: sch') ++ ':' :: '/' :: '/' :: t).takeWhile (fun c => !(c = '?'))).takeWhile
        (fun c => !(c = '#')))
      = ((a :: sch') ++ [':', '/', '/'])
        ++ ((t.takeWhile (fun c => !(c = '?'))).takeWhile (fun c => !(c = '#'))) := by
  have hA : ∀ c ∈ (a :: sch') ++ [':', '/', '/'], ¬(c = '?') ∧ ¬(c = '#') := by
    intro c hc
    rcases List.mem_append.mp hc with h | h
    · have hs := schemeChar_ne (hsc c h)
      exact ⟨hs.2.2.1, hs.2.2.2.1⟩
    · rcases List.mem_cons.mp h with h1 | h
      · subst h1; exact ⟨by decide, by decide⟩
      · rcases List.mem_cons.mp h with h1 | h
        · subst h1; exact ⟨by decide, by decide⟩
        · rcases List.mem_cons.mp h with h1 | h
          · subst h1; exact ⟨by decide, by decide⟩
          · exact absurd h (List.not_mem_nil c)
  have hshape : (a :: sch') ++ ':' :: '/' :: '/' :: t
      = ((a :: sch') ++ [':', '/', '/']) ++ t :=
    (List.append_assoc (a :: sch') [':', '/', '/'] t).symm
  rw [hshape, takeWhile_append_of_all (fun c hc => by simp [(hA c hc).1]),
    takeWhile_append_of_all (fun c hc => by simp [(hA c hc).2])]

lemma rebuildCore_strip_qf (a : Char) (sch' t : List Char)
    (ha : a.isAlpha = true)
    (hsc : ∀ c ∈ a :: sch', schemeChar c = true)
    (hlow : (a :: sch').map pyLower = a :: sch') :
    rebuildCore ((a :: sch') ++ ':' :: '/' :: '/' ::
        (t.takeWhile (fun c => !(c = '?') && !(c = '#'))))
      = rebuildCore ((a :: sch') ++ ':' :: '/' :: '/' :: t) := by
  unfold rebuildCore
  rw [urlparse3_form2 a sch' (t.takeWhile (fun c => !(c = '?') && !(c = '#'))) ha hsc hlow,
    urlparse3_form2 a sch' t ha hsc hlow,
    takeWhile_netloc_strip t, dropWhile_netloc_strip t,
    takeWhile_qh_strip (t.dropWhile netlocChar)]
  by_cases hbr : ('[' ∈ t.takeWhile netlocChar ∧ ']' ∉ t.takeWhile netlocChar)
      ∨ (']' ∈ t.takeWhile netlocChar ∧ '[' ∉ t.takeWhile netlocChar)
  · rw [if_pos hbr]
    dsimp only
    rw [url_qh_shape a sch' (t.takeWhile (fun c => !(c = '?') && !(c = '#'))) hsc,
      url_qh_shape a sch' t hsc,
      takeWhile_hq_strip t]
  · rw [if_neg hbr]

lemma rebuildCore_scheme_kept (a : Char) (sch' t : List Char)
    (ha : a.isAlpha = true)
    (hsc : ∀ c ∈ a :: sch', schemeChar c = true)
    (hlow : (a :: sch').map pyLower = a :: sch') :
    hasPrefixL ((a :: sch') ++ [':'])
      (rebuildCore ((a :: sch') ++ ':' :: '/' :: '/' :: t)) = true := by
  have hnos : ∀ c ∈ (a :: sch') ++ [':'], (fun c => decide (c = '/')) c = false := by
    intro c hc
    rcases List.mem_append.mp hc with h | h
    · simp [(schemeChar_ne (hsc c h)).2.1]
    · rcases List.mem_cons.mp h with h1 | h1
      · subst h1; decide
      · exact absurd h1 (List.not_mem_nil c)
  unfold rebuildCore
  rw [urlparse3_form2 a sch' t ha hsc hlow]
  by_cases hbr : ('[' ∈ t.takeWhile netlocChar ∧ ']' ∉ t.takeWhile netlocChar)
      ∨ (']' ∈ t.takeWhile netlocChar ∧ '[' ∉ t.takeWhile netlocChar)
  · rw [if_pos hbr]
    dsimp only
    rw [url_qh_shape a sch' t hsc,
      show ((a :: sch') ++ [':', '/', '/'])
          ++ ((t.takeWhile (fun c => !(c = '?'))).takeWhile (fun c => !(c = '#')))
        = ((a :: sch') ++ [':'])
          ++ ('/' :: '/' ::
            ((t.takeWhile (fun c => !(c = '?'))).takeWhile (fun c => !(c = '#'))))
        from (List.append_assoc (a :: sch') [':', '/', '/']
            ((t.takeWhile (fun c => !(c = '?'))).takeWhile (fun c => !(c = '#')))).trans
          (List.append_assoc (a :: sch') [':'] ('/' :: '/' ::
            ((t.takeWhile (fun c => !(c = '?'))).takeWhile (fun c => !(c = '#'))))).symm,
      dropTrail_append_left hnos]
    exact hasPrefixL_append_self _ _
  · rw [if_neg hbr]
    dsimp only
    rw [show (a :: sch') ++ ':' :: '/' :: '/' ::
          (t.takeWhile netlocChar
            ++ splitparams (((t.dropWhile netlocChar).takeWhile
                (fun c => !(c = '#'))).takeWhile (fun c => !(c = '?'))))
        = ((a :: sch') ++ [':'])
          ++ ('/' :: '/' ::
            (t.takeWhile netlocChar
              ++ splitparams (((t.dropWhile netlocChar).takeWhile
                  (fun c => !(c = '#'))).takeWhile (fun c => !(c = '?')))))
        from (List.append_assoc (a :: sch') [':'] ('/' :: '/' ::
            (t.takeWhile netlocChar
              ++ splitparams (((t.dropWhile netlocChar).takeWhile
                  (fun c => !(c = '#'))).takeWhile (fun c => !(c = '?')))))).symm,
      dropTrail_append_left hnos]
    exact hasPrefixL_append_self _ _

lemma dropTrail_slash_getLast (l : List Char) :
    dropTrail (fun c => c = '/') l = []
      ∨ (dropTrail (fun c => c = '/') l).getLast? ≠ some '/' := by
  cases hD : l.reverse.dropWhile (fun c => c = '/') with
  | nil =>
    left
    unfold dropTrail
    rw [hD]
    rfl
  | cons x xs =>
    right
    have hne : l.reverse.dropWhile (fun c => c = '/') ≠ [] := by
      rw [hD]
      exact List.cons_ne_nil _ _
    have hx := List.head_dropWhile_not (fun c => c = '/') l.reverse hne
    have hx2 : (l.reverse.dropWhile (fun c => c = '/')).head hne = x := by
      rw [List.head_eq_iff_head?_eq_some, hD]
      rfl
    rw [hx2] at hx
    intro hcon
    unfold dropTrail at hcon
    rw [List.getLast?_reverse, hD] at hcon
    have hx3 : x = '/' := by
      rw [show (x :: xs).head? = some x from rfl] at hcon
      exact Option.some.inj hcon
    rw [hx3] at hx
    exact absurd hx (by decide)

lemma rebuildCore_no_slash_end (url : List Char) :
    rebuildCore url = [] ∨ (rebuildCore url).getLast? ≠ some '/' := by
  unfold rebuildCore
  cases hp : urlparse3 url with
  | error e =>
    dsimp only
    exact dropTrail_slash_getLast _
  | ok trip =>
    obtain ⟨s, n, p⟩ := trip
    dsimp only
    exact dropTrail_slash_getLast _

lemma nul_no_slash_end (l : List Char) :
    normalize_url_list l = [] ∨ (normalize_url_list l).getLast? ≠ some '/' := by
  unfold normalize_url_list
  by_cases h0 : l = []
  · rw [if_pos h0]
    exact Or.inl rfl
  · rw [if_neg h0]
    exact rebuildCore_no_slash_end _

lemma nul_scheme_kept_http (u : List Char) (hp : hasPrefixL "http://".toList u = true) :
    hasPrefixL "http:".toList (normalize_url_list u) = true := by
  obtain ⟨t, ht⟩ := hasPrefixL_exists hp
  have ht2 : u = ('h' :: 't' :: 't' :: 'p' :: []) ++ ':' :: '/' :: '/' :: t := ht
  rw [ht2]
  have h1 : normalize_url_list (('h' :: 't' :: 't' :: 'p' :: []) ++ ':' :: '/' :: '/' :: t)
      = rebuildCore (('h' :: 't' :: 't' :: 'p' :: []) ++ ':' :: '/' :: '/' :: t) :=
    nul_alpha_head 'h' _ (by decide)
  rw [h1]
  exact rebuildCore_scheme_kept 'h' ['t', 't', 'p'] t (by decide) (by decide) (by decide)

lemma nul_scheme_kept_https (u : List Char) (hp : hasPrefixL "https://".toList u = true) :
    hasPrefixL "https:".toList (normalize_url_list u) = true := by
  obtain ⟨t, ht⟩ := hasPrefixL_exists hp
  have ht2 : u = ('h' :: 't' :: 't' :: 'p' :: 's' :: []) ++ ':' :: '/' :: '/' :: t := ht
  rw [ht2]
  have h1 : normalize_url_list
        (('h' :: 't' :: 't' :: 'p' :: 's' :: []) ++ ':' :: '/' :: '/' :: t)
      = rebuildCore (('h' :: 't' :: 't' :: 'p' :: 's' :: []) ++ ':' :: '/' :: '/' :: t) :=
    nul_alpha_head 'h' _ (by decide)
  rw [h1]
  exact rebuildCore_scheme_kept 'h' ['t', 't', 'p', 's'] t (by decide) (by decide) (by decide)

lemma nul_strip_qf_list (L : List Char)
    (hpre : hasPrefixL "http://".toList L = true
      ∨ hasPrefixL "https://".toList L = true ∨ L.take 1 = ['/']) :
    normalize_url_list (L.takeWhile (fun c => !(c = '?') && !(c = '#')))
      = normalize_url_list L := by
  rcases hpre with hp | hp | hp
  · obtain ⟨t, ht⟩ := hasPrefixL_exists hp
    have ht2 : L = ('h' :: 't' :: 't' :: 'p' :: []) ++ ':' :: '/' :: '/' :: t := ht
    rw [ht2]
    have htr : ((('h' :: 't' :: 't' :: 'p' :: []) ++ ':' :: '/' :: '/' :: t).takeWhile
          (fun c => !(c = '?') && !(c = '#')))
        = ('h' :: 't' :: 't' :: 'p' :: []) ++ ':' :: '/' :: '/' ::
            (t.takeWhile (fun c => !(c = '?') && !(c = '#'))) :=
      takeWhile_append_of_all (A := ['h', 't', 't', 'p', ':', '/', '/'])
        (List.all_eq_true.mp (by decide))
    rw [htr]
    have h1 : normalize_url_list (('h' :: 't' :: 't' :: 'p' :: []) ++ ':' :: '/' :: '/' ::
          (t.takeWhile (fun c => !(c = '?') && !(c = '#'))))
        = rebuildCore (('h' :: 't' :: 't' :: 'p' :: []) ++ ':' :: '/' :: '/' ::
          (t.takeWhile (fun c => !(c = '?') && !(c = '#')))) :=
      nul_alpha_head 'h' _ (by decide)
    have h3 : normalize_url_list (('h' :: 't' :: 't' :: 'p' :: []) ++ ':' :: '/' :: '/' :: t)
        = rebuildCore (('h' :: 't' :: 't' :: 'p' :: []) ++ ':' :: '/' :: '/' :: t) :=
      nul_alpha_head 'h' _ (by decide)
    rw [h1, h3]
    exact rebuildCore_strip_qf 'h' ['t', 't', 'p'] t (by decide) (by decide) (by decide)
  · obtain ⟨t, ht⟩ := hasPrefixL_exists hp
    have ht2 : L = ('h' :: 't' :: 't' :: 'p' :: 's' :: []) ++ ':' :: '/' :: '/' :: t := ht
    rw [ht2]
    have htr : ((('h' :: 't' :: 't' :: 'p' :: 's' :: []) ++ ':' :: '/' :: '/' :: t).takeWhile
          (fun c => !(c = '?') && !(c = '#')))
        = ('h' :: 't' :: 't' :: 'p' :: 's' :: []) ++ ':' :: '/' :: '/' ::
            (t.takeWhile (fun c => !(c = '?') && !(c = '#'))) :=
      takeWhile_append_of_all (A := ['h', 't', 't', 'p', 's', ':', '/', '/'])
        (List.all_eq_true.mp (by decide))
    rw [htr]
    have h1 : normalize_url_list
          (('h' :: 't' :: 't' :: 'p' :: 's' :: []) ++ ':' :: '/' :: '/' ::
            (t.takeWhile (fun c => !(c = '?') && !(c = '#'))))
        = rebuildCore (('h' :: 't' :: 't' :: 'p' :: 's' :: []) ++ ':' :: '/' :: '/' ::
            (t.takeWhile (fun c => !(c = '?') && !(c = '#')))) :=
      nul_alpha_head 'h' _ (by decide)
    have h3 : normalize_url_list
          (('h' :: 't' :: 't' :: 'p' :: 's' :: []) ++ ':' :: '/' :: '/' :: t)
        = rebuildCore (('h' :: 't' :: 't' :: 'p' :: 's' :: []) ++ ':' :: '/' :: '/' :: t) :=
      nul_alpha_head 'h' _ (by decide)
    rw [h1, h3]
    exact rebuildCore_strip_qf 'h' ['t', 't', 'p', 's'] t (by decide) (by decide) (by decide)
  · cases hL : L with
    | nil =>
      rw [hL] at hp
      exact absurd hp (by decide)
    | cons a rest =>
      rw [hL] at hp
      have ha : a = '/' := by
        rw [List.take_succ_cons, List.take_zero] at hp
        exact (List.cons.inj hp).1
      subst ha
      have htr0 : (('/' :: rest).takeWhile (fun c => !(c = '?') && !(c = '#')))
          = '/' :: rest.takeWhile (fun c => !(c = '?') && !(c = '#')) := by
        rw [List.takeWhile_cons, if_pos (by decide)]
      rw [htr0]
      by_cases h2 : rest.take 1 = ['/']
      · cases rest with
        | nil => exact absurd h2 (by decide)
        | cons b rest2 =>
          have hb : b = '/' := by
            rw [List.take_succ_cons, List.take_zero] at h2
            exact (List.cons.inj h2).1
          subst hb
          have htr1 : (('/' :: rest2).takeWhile (fun c => !(c = '?') && !(c = '#')))
              = '/' :: rest2.takeWhile (fun c => !(c = '?') && !(c = '#')) := by
            rw [List.takeWhile_cons, if_pos (by decide)]
          rw [htr1, nul_protocol_rel (rest2.takeWhile (fun c => !(c = '?') && !(c = '#'))),
            nul_protocol_rel rest2]
          show normalize_url_list
              (('h' :: 't' :: 't' :: 'p' :: 's' :: []) ++ ':' :: '/' :: '/' ::
                (rest2.takeWhile (fun c => !(c = '?') && !(c = '#'))))
            = normalize_url_list
              (('h' :: 't' :: 't' :: 'p' :: 's' :: []) ++ ':' :: '/' :: '/' :: rest2)
          have h1 : normalize_url_list
                (('h' :: 't' :: 't' :: 'p' :: 's' :: []) ++ ':' :: '/' :: '/' ::
                  (rest2.takeWhile (fun c => !(c = '?') && !(c = '#'))))
              = rebuildCore (('h' :: 't' :: 't' :: 'p' :: 's' :: []) ++ ':' :: '/' :: '/' ::
                  (rest2.takeWhile (fun c => !(c = '?') && !(c = '#')))) :=
            nul_alpha_head 'h' _ (by decide)
          have h3 : normalize_url_list
                (('h' :: 't' :: 't' :: 'p' :: 's' :: []) ++ ':' :: '/' :: '/' :: rest2)
              = rebuildCore
                (('h' :: 't' :: 't' :: 'p' :: 's' :: []) ++ ':' :: '/' :: '/' :: rest2) :=
            nul_alpha_head 'h' _ (by decide)
          rw [h1, h3]
          exact rebuildCore_strip_qf 'h' ['t', 't', 'p', 's'] rest2 (by decide) (by decide)
            (by decide)
      · have hr' : (rest.takeWhile (fun c => !(c = '?') && !(c = '#'))).take 1 ≠ ['/'] := by
          intro hcon
          cases htw : rest.takeWhile (fun c => !(c = '?') && !(c = '#')) with
          | nil =>
            rw [htw] at hcon
            exact absurd hcon (by decide)
          | cons x xs =>
            rw [htw, List.take_succ_cons, List.take_zero] at hcon
            have hx : x = '/' := (List.cons.inj hcon).1
            have hh : (rest.takeWhile (fun c => !(c = '?') && !(c = '#'))).head? = rest.head? :=
              takeWhile_head_of_ne_nil (by rw [htw]; exact List.cons_ne_nil _ _)
            rw [htw] at hh
            cases rest with
            | nil => exact Option.noConfusion hh
            | cons b bs =>
              have hbx : some x = some b := hh
              have hb : b = '/' := by
                rw [hx] at hbx
                exact (Option.some.inj hbx).symm
              apply h2
              rw [hb, List.take_succ_cons, List.take_zero]
        rw [nul_rel_slash (rest.takeWhile (fun c => !(c = '?') && !(c = '#'))) hr',
          nul_rel_slash rest h2]
        have hT : (("www.rottentomatoes.com".toList ++ '/' :: rest).takeWhile
              (fun c => !(c = '?') && !(c = '#')))
            = "www.rottentomatoes.com".toList ++ '/' ::
                (rest.takeWhile (fun c => !(c = '?') && !(c = '#'))) := by
          rw [takeWhile_append_of_all (A := "www.rottentomatoes.com".toList)
              (List.all_eq_true.mp (by decide)),
            List.takeWhile_cons, if_pos (by decide)]
        show normalize_url_list
            (('h' :: 't' :: 't' :: 'p' :: 's' :: []) ++ ':' :: '/' :: '/' ::
              ("www.rottentomatoes.com".toList ++ '/' ::
                (rest.takeWhile (fun c => !(c = '?') && !(c = '#')))))
          = normalize_url_list
            (('h' :: 't' :: 't' :: 'p' :: 's' :: []) ++ ':' :: '/' :: '/' ::
              ("www.rottentomatoes.com".toList ++ '/' :: rest))
        rw [← hT]
        have h1 : normalize_url_list
              (('h' :: 't' :: 't' :: 'p' :: 's' :: []) ++ ':' :: '/' :: '/' ::
                (("www.rottentomatoes.com".toList ++ '/' :: rest).takeWhile
                  (fun c => !(c = '?') && !(c = '#'))))
            = rebuildCore
              (('h' :: 't' :: 't' :: 'p' :: 's' :: []) ++ ':' :: '/' :: '/' ::
                (("www.rottentomatoes.com".toList ++ '/' :: rest).takeWhile
                  (fun c => !(c = '?') && !(c = '#')))) :=
          nul_alpha_head 'h' _ (by decide)
        have h3 : normalize_url_list
              (('h' :: 't' :: 't' :: 'p' :: 's' :: []) ++ ':' :: '/' :: '/' ::
                ("www.rottentomatoes.com".toList ++ '/' :: rest))
            = rebuildCore
              (('h' :: 't' :: 't' :: 'p' :: 's' :: []) ++ ':' :: '/' :: '/' ::
                ("www.rottentomatoes.com".toList ++ '/' :: rest)) :=
          nul_alpha_head 'h' _ (by decide)
        rw [h1, h3]
        exact rebuildCore_strip_qf 'h' ['t', 't', 'p', 's']
          ("www.rottentomatoes.com".toList ++ '/' :: rest) (by decide) (by decide) (by decide)

/-- Claim C5: normalize_url resolves site-relative and protocol-relative
references against the site origin (for every input of those shapes); for
every collected href form it strips the query string and the fragment —
normalizing an href is the same as normalizing it cut at its first
question mark or hash sign — an absolute reference keeps its scheme as a
prefix of the output, and no output ever ends with a slash; the given
examples follow. -/
theorem claim5_normalize_url_components :
    (∀ u : String, u.toList.take 1 = ['/'] → u.toList.take 2 ≠ ['/', '/'] →
      normalize_url u = normalize_url ("https://www.rottentomatoes.com" ++ u))
    ∧ (∀ u : String, u.toList.take 2 = ['/', '/'] →
      normalize_url u = normalize_url ("https:" ++ u))
    ∧ (∀ u : String,
        (hasPrefixL "http://".toList u.toList = true
          ∨ hasPrefixL "https://".toList u.toList = true
          ∨ u.toList.take 1 = ['/']) →
        normalize_url u
          = normalize_url ((u.toList.takeWhile (fun c => !(c = '?') && !(c = '#'))).asString))
    ∧ (∀ u : String, hasPrefixL "http://".toList u.toList = true →
        hasPrefixL "http:".toList (normalize_url u).toList = true)
    ∧ (∀ u : String, hasPrefixL "https://".toList u.toList = true →
        hasPrefixL "https:".toList (normalize_url u).toList = true)
    ∧ (∀ u : String, normalize_url u = ""
        ∨ (normalize_url u).toList.getLast? ≠ some '/')
    ∧ normalize_url "https://site/m/foo?x=1#y" = "https://site/m/foo"
    ∧ normalize_url "/m/foo?x=1" = "https://www.rottentomatoes.com/m/foo"
    ∧ normalize_url "https://site/m/foo/" = "https://site/m/foo" := by
  refine ⟨?_, ?_, ?_, ?_, ?_, ?_, by decide, by decide, by decide⟩
  · intro u h1 h2
    cases hu : u.toList with
    | nil => rw [hu] at h1; exact absurd h1 (by decide)
    | cons a rest =>
      rw [hu] at h1 h2
      rw [List.take_succ_cons, List.take_zero] at h1
      have ha : a = '/' := (List.cons.inj h1).1
      subst ha
      have hr : rest.take 1 ≠ ['/'] := by
        intro hcon
        rw [List.take_succ_cons, hcon] at h2
        exact h2 rfl
      unfold normalize_url
      rw [show ("https://www.rottentomatoes.com" ++ u).toList
            = "https://www.rottentomatoes.com".toList ++ u.toList from String.data_append _ _,
        hu]
      exact congrArg List.asString (nul_rel_slash rest hr)
  · intro u h2
    cases hu : u.toList with
    | nil => rw [hu] at h2; exact absurd h2 (by decide)
    | cons a rest =>
      rw [hu] at h2
      cases rest with
      | nil =>
        rw [List.take_succ_cons] at h2
        exact absurd (List.cons.inj h2).2 (by decide)
      | cons b rest2 =>
        rw [List.take_succ_cons, List.take_succ_cons, List.take_zero] at h2
        have hab : a = '/' ∧ b = '/' := by
          have h3 := List.cons.inj h2
          exact ⟨h3.1, (List.cons.inj h3.2).1⟩
        obtain ⟨ha, hb⟩ := hab
        subst ha; subst hb
        unfold normalize_url
        rw [show ("https:" ++ u).toList = "https:".toList ++ u.toList from
            String.data_append _ _, hu]
        exact congrArg List.asString (nul_protocol_rel rest2)
  · intro u hpre
    unfold normalize_url
    rw [show ((u.toList.takeWhile (fun c => !(c = '?') && !(c = '#'))).asString).toList
        = u.toList.takeWhile (fun c => !(c = '?') && !(c = '#')) from rfl]
    exact (congrArg List.asString (nul_strip_qf_list u.toList hpre)).symm
  · intro u hp
    show hasPrefixL "http:".toList (normalize_url_list u.toList) = true
    exact nul_scheme_kept_http u.toList hp
  · intro u hp
    show hasPrefixL "https:".toList (normalize_url_list u.toList) = true
    exact nul_scheme_kept_https u.toList hp
  · intro u
    rcases nul_no_slash_end u.toList with h | h
    · left
      show (normalize_url_list u.toList).asString = ""
      rw [h]
      decide
    · right
      show (normalize_url_list u.toList).getLast? ≠ some '/'
      exact h

theorem claim5_normalize_url_components_witness :
    normalize_url "/top" = normalize_url ("https://www.rottentomatoes.com" ++ "/top")
    ∧ normalize_url "//cdn/x" = normalize_url ("https:" ++ "//cdn/x")
    ∧ normalize_url "https://site/m/a?x=1#y"
        = normalize_url (("https://site/m/a?x=1#y".toList.takeWhile
            (fun c => !(c = '?') && !(c = '#'))).asString)
    ∧ hasPrefixL "http:".toList (normalize_url "http://h/x").toList = true
    ∧ hasPrefixL "https:".toList (normalize_url "https://h/y").toList = true :=
  ⟨claim5_normalize_url_components.1 "/top" (by decide) (by decide),
   claim5_normalize_url_components.2.1 "//cdn/x" (by decide),
   claim5_normalize_url_components.2.2.1 "https://site/m/a?x=1#y"
     (Or.inr (Or.inl (by decide))),
   claim5_normalize_url_components.2.2.2.1 "http://h/x" (by decide),
   claim5_normalize_url_components.2.2.2.2.1 "https://h/y" (by decide)⟩

/-! ### Claim theorems: collector dedup invariant -/

lemma processCandidate_preserves {d : List MovieEntry} (c : Candidate)
    (h : List.Pairwise entryDistinct d) :
    List.Pairwise entryDistinct (processCandidate d c) := by
  obtain ⟨ot, oh⟩ := c
  cases ot with
  | none => exact h
  | some rawTitle =>
    cases oh with
    | none =>
      simp only [processCandidate]
      split
      · exact h
      · split
        · exact h
        · exact h
    | some href =>
      simp only [processCandidate]
      split
      · exact h
      · split
        · exact h
        · split
          · exact h
          · split
            · exact h
            · next hnu =>
              split
              · exact h
              · next hnt =>
                rw [List.pairwise_append]
                refine ⟨h, List.pairwise_singleton _ _, ?_⟩
                intro a ha b hb
                have hb' : b = ⟨stripS rawTitle, normalize_url href⟩ := List.mem_singleton.mp hb
                subst hb'
                constructor
                · intro hcon
                  exact hnu (List.mem_map.mpr ⟨a, ha, hcon⟩)
                · intro hcon
                  exact hnt (List.mem_map.mpr ⟨a, ha, hcon⟩)

lemma foldl_candidates_preserves :
    ∀ (cs : List Candidate) (d : List MovieEntry),
      List.Pairwise entryDistinct d →
      List.Pairwise entryDistinct (cs.foldl processCandidate d) := by
  intro cs
  induction cs with
  | nil => intro d h; exact h
  | cons c cs ih =>
    intro d h
    exact ih (processCandidate d c) (processCandidate_preserves c h)

lemma foldl_pages_preserves :
    ∀ (pages : List (List Candidate)) (d : List MovieEntry),
      List.Pairwise entryDistinct d →
      List.Pairwise entryDistinct
        (pages.foldl (fun d page => page.foldl processCandidate d) d) := by
  intro pages
  induction pages with
  | nil => intro d h; exact h
  | cons pg pages ih =>
    intro d h
    exact ih _ (foldl_candidates_preserves pg d h)

/-- Claim C2: after any collection run no two accepted entries share a
normalized URL or a normalized title (the invariant holds at every point
of the fold, hence in particular for the returned sequence); and a
candidate whose normalized URL or normalized title is already present
among the accepted entries leaves the accepted set unchanged. -/
theorem claim2_dedup_invariant :
    (∀ pages, List.Pairwise
        (fun a b => a.url ≠ b.url ∧ normalize_title a.title ≠ normalize_title b.title)
        (scrape_list_pages pages))
    ∧ (∀ (d : List MovieEntry) (t h : String),
        (normalize_url h ∈ d.map MovieEntry.url
          ∨ normalize_title (stripS t) ∈ d.map (fun m => normalize_title m.title)) →
        processCandidate d ⟨some t, some h⟩ = d) := by
  constructor
  · intro pages
    exact foldl_pages_preserves pages [] List.Pairwise.nil
  · intro d t h hmem
    simp only [processCandidate]
    split
    · rfl
    · split
      · rfl
      · split
        · rfl
        · split
          · rfl
          · next hnu =>
            split
            · rfl
            · next hnt =>
              rcases hmem with hm | hm
              · exact absurd hm hnu
              · exact absurd hm hnt

theorem claim2_dedup_invariant_witness :
    processCandidate [⟨"The Matrix", "https://www.rottentomatoes.com/m/matrix"⟩]
        ⟨some "The  MATRIX!", some "/m/other"⟩
      = [⟨"The Matrix", "https://www.rottentomatoes.com/m/matrix"⟩] :=
  claim2_dedup_invariant.2 _ "The  MATRIX!" "/m/other" (Or.inr (by decide))

theorem claim10_tier2_zero_never_assigned_witness :
    (tier2 (some (some 0, some 7)) none (some 5)).1 = none
    ∧ (tier2 (some (some 7, some 0)) (some 5) none).2 = none :=
  ⟨claim10_tier2_zero_never_assigned.1 (some 7) none (some 5) rfl,
   claim10_tier2_zero_never_assigned.2.1 (some 7) (some 5) none rfl⟩
